import Mathlib

/-!
# Verification of the vLLM KV-cache block manager and scheduler core

This development gives a shallow embedding, in Lean 4, of the core data
structures and algorithms of the paged KV-cache block manager and request
scheduler of this repository:

* `vllm/core/block/evictor.py` — the `LRUEvictor`;
* `vllm/core/block/common.py` — the `RefCounter` and CoW tracking;
* `vllm/core/block/naive_block.py` — the `NaiveBlockAllocator`;
* `vllm/core/block/block_space_manager.py` — `BlockSpaceManager.can_allocate`;
* `vllm/core/scheduler.py` — `Scheduler._schedule`, `Scheduler._preempt`
  and `SchedulerOutputs`.

Python dictionaries that preserve insertion order (`OrderedDict`) are
modelled as association lists in insertion order; Python sets are modelled
as duplicate-free lists (the arbitrary iteration order of a set becomes
the list order); mutation becomes explicit state passing; `assert`
failures and raised exceptions become `Option.none`.
-/

namespace VLLM

/-! ## LRUEvictor (vllm/core/block/evictor.py)

`LRUEvictor.free_table` is an `OrderedDict[int, Block]` where `Block`
carries `content_hash`, `num_hashed_tokens`, `last_accessed`.  We model it
as a list of `EvBlock` in insertion order, with content hashes unique. -/

/-- The `Block` record stored in `LRUEvictor.free_table`
(class `Block` of `evictor.py`). -/
structure EvBlock where
  content_hash : Nat
  num_hashed_tokens : Nat
  last_accessed : Int
  deriving DecidableEq, Repr

/-- The `LRUEvictor` state: the `free_table` `OrderedDict`, as a list in
insertion order. -/
abbrev EvictorState := List EvBlock

namespace LRUEvictor

/-- `LRUEvictor.__contains__`: membership of a content hash in `free_table`. -/
def containsHash (t : EvictorState) (h : Nat) : Bool :=
  t.any (fun b => b.content_hash == h)

/-- `LRUEvictor.add`: `self.free_table[content_hash] = Block(...)`.
Assignment to an `OrderedDict` key that is already present overwrites the
value in place (the key keeps its position); a new key is appended at the
end. -/
def add (t : EvictorState) (h n : Nat) (la : Int) : EvictorState :=
  if containsHash t h then
    t.map (fun b => if b.content_hash == h then ⟨h, n, la⟩ else b)
  else
    t ++ [⟨h, n, la⟩]

/-- `LRUEvictor.remove`: pop the key, or fail (`ValueError`) if absent. -/
def remove (t : EvictorState) (h : Nat) : Option EvictorState :=
  if containsHash t h then
    some (t.filter (fun b => b.content_hash ≠ h))
  else
    none

/-- The `for _, block in self.free_table.items()` loop body of
`LRUEvictor.evict`: starting from the current `evicted_block`, scan the
remaining entries; `break` once a strictly larger `last_accessed` is seen,
and switch to a block with strictly more hashed tokens otherwise. -/
def evictLoop (evicted : EvBlock) : List EvBlock → EvBlock
  | [] => evicted
  | b :: bs =>
    if evicted.last_accessed < b.last_accessed then evicted
    else evictLoop (if evicted.num_hashed_tokens < b.num_hashed_tokens then b else evicted) bs

/-- `LRUEvictor.evict`: raise (`none`) on an empty table; otherwise start
from the first entry, run the scan loop over all entries, pop the chosen
key and return its content hash together with the new state. -/
def evict (t : EvictorState) : Option (Nat × EvictorState) :=
  match t with
  | [] => none
  | b0 :: _ =>
    let ev := evictLoop b0 t
    some (ev.content_hash, t.filter (fun b => b.content_hash ≠ ev.content_hash))

/-- `LRUEvictor.num_blocks`: `len(self.free_table)`. -/
def numBlocks (t : EvictorState) : Nat := t.length

end LRUEvictor

/-! ### Lemmas about the eviction scan -/

/-- Behaviour of the `evict` scan loop when the remaining entries are
sorted by `last_accessed` and all lie at or above the current candidate:
the loop keeps the candidate's timestamp and maximises
`num_hashed_tokens` among entries tied at that timestamp. -/
theorem evictLoop_spec (rest : List EvBlock) (ev : EvBlock)
    (hp : rest.Pairwise (fun a b => a.last_accessed ≤ b.last_accessed))
    (hle : ∀ b ∈ rest, ev.last_accessed ≤ b.last_accessed) :
    (LRUEvictor.evictLoop ev rest = ev ∨ LRUEvictor.evictLoop ev rest ∈ rest) ∧
    (LRUEvictor.evictLoop ev rest).last_accessed = ev.last_accessed ∧
    ev.num_hashed_tokens ≤ (LRUEvictor.evictLoop ev rest).num_hashed_tokens ∧
    (∀ b ∈ rest, b.last_accessed = ev.last_accessed →
      b.num_hashed_tokens ≤ (LRUEvictor.evictLoop ev rest).num_hashed_tokens) := by
  induction rest generalizing ev with
  | nil => simp [LRUEvictor.evictLoop]
  | cons b bs ih =>
    rcases List.pairwise_cons.mp hp with ⟨hb, hbs⟩
    have hevb : ev.last_accessed ≤ b.last_accessed := hle b (by simp)
    by_cases hlt : ev.last_accessed < b.last_accessed
    · have hres : LRUEvictor.evictLoop ev (b :: bs) = ev := by
        show (if ev.last_accessed < b.last_accessed then ev
          else LRUEvictor.evictLoop
            (if ev.num_hashed_tokens < b.num_hashed_tokens then b else ev) bs) = ev
        rw [if_pos hlt]
      rw [hres]
      refine ⟨Or.inl rfl, rfl, le_refl _, ?_⟩
      intro c hc hceq
      rcases List.mem_cons.mp hc with hc | hc
      · subst hc; omega
      · have := hb c hc
        omega
    · have hbe : b.last_accessed = ev.last_accessed := by omega
      set ev' := if ev.num_hashed_tokens < b.num_hashed_tokens then b else ev with hev'
      have hlast' : ev'.last_accessed = ev.last_accessed := by
        rw [hev']; split <;> omega
      have hnum' : ev.num_hashed_tokens ≤ ev'.num_hashed_tokens := by
        rw [hev']; split <;> omega
      have hnumb : b.num_hashed_tokens ≤ ev'.num_hashed_tokens := by
        rw [hev']; split <;> omega
      have hle' : ∀ c ∈ bs, ev'.last_accessed ≤ c.last_accessed := by
        intro c hc; rw [hlast']; exact hle c (List.mem_cons_of_mem _ hc)
      have h := ih ev' hbs hle'
      have hres : LRUEvictor.evictLoop ev (b :: bs) = LRUEvictor.evictLoop ev' bs := by
        show (if ev.last_accessed < b.last_accessed then ev
          else LRUEvictor.evictLoop
            (if ev.num_hashed_tokens < b.num_hashed_tokens then b else ev) bs) =
          LRUEvictor.evictLoop ev' bs
        rw [if_neg hlt, ← hev']
      rw [hres]
      refine ⟨?_, ?_, ?_, ?_⟩
      · rcases h.1 with h1 | h1
        · rw [h1, hev']; split
          · exact Or.inr (by simp)
          · exact Or.inl rfl
        · exact Or.inr (List.mem_cons_of_mem _ h1)
      · rw [h.2.1, hlast']
      · exact le_trans hnum' h.2.2.1
      · intro c hc hceq
        rcases List.mem_cons.mp hc with hc | hc
        · subst hc; exact le_trans hnumb h.2.2.1
        · exact h.2.2.2 c hc (by rw [hceq, ← hlast'])

/-- C2 (amended): provided the `free_table` entries, in insertion order,
have non-decreasing `last_accessed` (which is how the allocator populates
the evictor, with a monotonically increasing clock), `evict()` removes and
returns the content hash of a candidate whose `last_accessed` is the
minimum over all stored candidates and whose `num_hashed_tokens` is
maximal among candidates sharing that minimum; on an empty evictor,
`evict()` fails. -/
theorem c2_lru_evict_min_sorted (t : EvictorState)
    (hs : t.Pairwise (fun a b => a.last_accessed ≤ b.last_accessed)) :
    (t = [] → LRUEvictor.evict t = none) ∧
    (t ≠ [] → ∃ ev : EvBlock, ev ∈ t ∧
      LRUEvictor.evict t =
        some (ev.content_hash, t.filter (fun b => b.content_hash ≠ ev.content_hash)) ∧
      (∀ b ∈ t, ev.last_accessed ≤ b.last_accessed) ∧
      (∀ b ∈ t, b.last_accessed = ev.last_accessed →
        b.num_hashed_tokens ≤ ev.num_hashed_tokens)) := by
  constructor
  · intro h; subst h; rfl
  · intro hne
    match t, hne with
    | b0 :: bs, _ =>
      rcases List.pairwise_cons.mp hs with ⟨hb0, hbs⟩
      have hstep : LRUEvictor.evictLoop b0 (b0 :: bs) = LRUEvictor.evictLoop b0 bs := by
        simp [LRUEvictor.evictLoop]
      have h := evictLoop_spec bs b0 hbs hb0
      refine ⟨LRUEvictor.evictLoop b0 (b0 :: bs), ?_, ?_, ?_, ?_⟩
      · rw [hstep]
        rcases h.1 with h1 | h1
        · rw [h1]; simp
        · exact List.mem_cons_of_mem _ h1
      · simp only [LRUEvictor.evict, hstep]
      · intro b hb
        rw [hstep, h.2.1]
        rcases List.mem_cons.mp hb with hb | hb
        · subst hb; exact le_refl _
        · exact hb0 b hb
      · intro b hb hbeq
        rw [hstep] at hbeq ⊢
        rcases List.mem_cons.mp hb with hb | hb
        · subst hb; exact h.2.2.1
        · exact h.2.2.2 b hb (by rw [hbeq, h.2.1])

/-- C2 counterexample: the claim as stated — over *every* non-empty
evictor state — is false.  The state reached by
`add(1, 1, last_accessed=5); add(2, 1, last_accessed=3)` stores candidate
2 with the strictly smaller `last_accessed = 3`, yet `evict()` removes and
returns content hash 1, whose stored `last_accessed` is 5. -/
theorem c2_lru_evict_counterexample :
    LRUEvictor.evict (LRUEvictor.add (LRUEvictor.add [] 1 1 5) 2 1 3) =
      some (1, [⟨2, 1, 3⟩]) ∧
    (⟨1, 1, 5⟩ : EvBlock) ∈ LRUEvictor.add (LRUEvictor.add [] 1 1 5) 2 1 3 ∧
    (⟨2, 1, 3⟩ : EvBlock) ∈ LRUEvictor.add (LRUEvictor.add [] 1 1 5) 2 1 3 ∧
    ¬ ((5 : Int) ≤ 3) := by
  refine ⟨rfl, by decide, by decide, by decide⟩

/-- Witness for `c2_lru_evict_min_sorted` at the concrete sorted state
`[⟨1,2,0⟩, ⟨2,5,0⟩, ⟨3,1,1⟩]` (two candidates tied at the minimum
timestamp 0; hash 2 has the larger `num_hashed_tokens`). -/
theorem c2_lru_evict_min_sorted_witness :
    ∃ ev : EvBlock, ev ∈ ([⟨1, 2, 0⟩, ⟨2, 5, 0⟩, ⟨3, 1, 1⟩] : EvictorState) ∧
      LRUEvictor.evict [⟨1, 2, 0⟩, ⟨2, 5, 0⟩, ⟨3, 1, 1⟩] =
        some (ev.content_hash,
          ([⟨1, 2, 0⟩, ⟨2, 5, 0⟩, ⟨3, 1, 1⟩] : EvictorState).filter
            (fun b => b.content_hash ≠ ev.content_hash)) ∧
      (∀ b ∈ ([⟨1, 2, 0⟩, ⟨2, 5, 0⟩, ⟨3, 1, 1⟩] : EvictorState),
        ev.last_accessed ≤ b.last_accessed) ∧
      (∀ b ∈ ([⟨1, 2, 0⟩, ⟨2, 5, 0⟩, ⟨3, 1, 1⟩] : EvictorState),
        b.last_accessed = ev.last_accessed →
          b.num_hashed_tokens ≤ ev.num_hashed_tokens) :=
  (c2_lru_evict_min_sorted [⟨1, 2, 0⟩, ⟨2, 5, 0⟩, ⟨3, 1, 1⟩] (by decide)).2 (by decide)

/-- C10: re-adding a content hash `h` that is already present overwrites
the stored `num_hashed_tokens` and `last_accessed` for `h` in place: the
sequence of content hashes (hence `h`'s position in the eviction iteration
order, the absence of duplicates, and `num_blocks`) is unchanged, every
entry with a different hash is untouched, and the entry for `h` now holds
the new values. -/
theorem c10_add_overwrite_in_place (t : EvictorState) (h n : Nat) (la : Int)
    (hmem : LRUEvictor.containsHash t h = true) :
    (LRUEvictor.add t h n la).map (fun b => b.content_hash) =
      t.map (fun b => b.content_hash) ∧
    LRUEvictor.numBlocks (LRUEvictor.add t h n la) = LRUEvictor.numBlocks t ∧
    (∀ b ∈ LRUEvictor.add t h n la, b.content_hash = h → b = ⟨h, n, la⟩) ∧
    (∀ i : Nat, ∀ b : EvBlock, t[i]? = some b → b.content_hash ≠ h →
      (LRUEvictor.add t h n la)[i]? = some b) ∧
    (⟨h, n, la⟩ : EvBlock) ∈ LRUEvictor.add t h n la := by
  have hadd : LRUEvictor.add t h n la =
      t.map (fun b => if b.content_hash == h then ⟨h, n, la⟩ else b) := by
    simp [LRUEvictor.add, hmem]
  refine ⟨?_, ?_, ?_, ?_, ?_⟩
  · rw [hadd, List.map_map]
    apply List.map_congr_left
    intro b _
    simp only [Function.comp_apply]
    split
    · next heq => simp at heq; simp [heq]
    · rfl
  · rw [hadd]; simp [LRUEvictor.numBlocks]
  · intro b hb hbh
    rw [hadd] at hb
    rcases List.mem_map.mp hb with ⟨c, _, hc⟩
    by_cases hch : c.content_hash == h
    · rw [if_pos hch] at hc; exact hc.symm
    · rw [if_neg hch] at hc
      subst hc
      simp at hch
      exact absurd hbh hch
  · intro i b hib hbh
    rw [hadd]
    rw [List.getElem?_map, hib]
    show some (if b.content_hash == h then (⟨h, n, la⟩ : EvBlock) else b) = some b
    rw [if_neg (by simpa using hbh)]
  · rcases List.any_eq_true.mp hmem with ⟨c, hc, hch⟩
    rw [hadd]
    exact List.mem_map.mpr ⟨c, hc, by rw [if_pos hch]⟩

/-- Witness for `c10_add_overwrite_in_place` at a concrete two-entry
state: re-adding hash 1 with new values. -/
theorem c10_add_overwrite_in_place_witness :
    ((LRUEvictor.add [⟨1, 2, 0⟩, ⟨2, 5, 7⟩] 1 9 4).map (fun b => b.content_hash) =
      ([⟨1, 2, 0⟩, ⟨2, 5, 7⟩] : EvictorState).map (fun b => b.content_hash)) ∧
    LRUEvictor.numBlocks (LRUEvictor.add [⟨1, 2, 0⟩, ⟨2, 5, 7⟩] 1 9 4) =
      LRUEvictor.numBlocks [⟨1, 2, 0⟩, ⟨2, 5, 7⟩] ∧
    (∀ b ∈ LRUEvictor.add [⟨1, 2, 0⟩, ⟨2, 5, 7⟩] 1 9 4,
      b.content_hash = 1 → b = ⟨1, 9, 4⟩) ∧
    (∀ i : Nat, ∀ b : EvBlock,
      ([⟨1, 2, 0⟩, ⟨2, 5, 7⟩] : EvictorState)[i]? = some b → b.content_hash ≠ 1 →
      (LRUEvictor.add [⟨1, 2, 0⟩, ⟨2, 5, 7⟩] 1 9 4)[i]? = some b) ∧
    (⟨1, 9, 4⟩ : EvBlock) ∈ LRUEvictor.add [⟨1, 2, 0⟩, ⟨2, 5, 7⟩] 1 9 4 :=
  c10_add_overwrite_in_place [⟨1, 2, 0⟩, ⟨2, 5, 7⟩] 1 9 4 (by decide)

/-! ## BlockSpaceManager.can_allocate
(vllm/core/block/block_space_manager.py, and the identical logic in
vllm/core/block_manager_v2.py) -/

/-- `AllocStatus` of `block_space_manager.py`. -/
inductive AllocStatus
  | OK
  | LATER
  | NEVER
  deriving DecidableEq, Repr

/-- Modelled from the spec: the number of logical blocks of a prompt
(`len(seq.logical_token_blocks)` in `can_allocate`, and
`BlockTable.get_num_required_blocks` in the V2 manager).  `Sequence` and
`BlockTable` are not part of the analysed sources; spec §3/§4.6 fix the
block-table length as `⌈tokens / block_size⌉`. -/
def numRequiredBlocks (numTokens blockSize : Nat) : Nat :=
  (numTokens + blockSize - 1) / blockSize

/-- `self.watermark_blocks = int(watermark * num_gpu_blocks)` in
`BlockSpaceManager.__init__` (truncation of a non-negative product is its
floor; the float product is modelled as the exact rational product). -/
def watermarkBlocks (watermark : ℚ) (numGpuBlocks : Nat) : Nat :=
  (⌊watermark * numGpuBlocks⌋).toNat

/-- `BlockSpaceManager.can_allocate`: cap the required block count at the
sliding-window block count when configured, then compare against the
watermark.  Subtractions are over `Int`, as in Python. -/
def canAllocate (numTotalGpuBlocks wmBlocks : Nat) (blockSlidingWindow : Option Nat)
    (numFreeGpuBlocks numRequiredBlocks0 : Nat) : AllocStatus :=
  let numRequired : Nat :=
    match blockSlidingWindow with
    | some w => min numRequiredBlocks0 w
    | none => numRequiredBlocks0
  if (numTotalGpuBlocks : Int) - numRequired < wmBlocks then .NEVER
  else if (numFreeGpuBlocks : Int) - numRequired ≥ wmBlocks then .OK
  else .LATER

/-- C3: `can_allocate` returns NEVER iff
`num_total_gpu_blocks − required < watermark_blocks`; otherwise it returns
OK iff `num_free_gpu_blocks − required ≥ watermark_blocks` and LATER
otherwise, where `required` is the prompt's block count capped at the
sliding-window block count and
`watermark_blocks = ⌊watermark × num_gpu_blocks⌋`. -/
theorem c3_can_allocate_cases (watermark : ℚ) (hw : 0 ≤ watermark)
    (numTotalGpuBlocks numFreeGpuBlocks promptLen blockSize : Nat)
    (blockSlidingWindow : Option Nat) (wm required0 required : Nat)
    (hwm : wm = watermarkBlocks watermark numTotalGpuBlocks)
    (hr0 : required0 = numRequiredBlocks promptLen blockSize)
    (hr : required = match blockSlidingWindow with
      | some w => min required0 w
      | none => required0) :
    ((wm : Int) = ⌊watermark * numTotalGpuBlocks⌋) ∧
    (canAllocate numTotalGpuBlocks wm blockSlidingWindow numFreeGpuBlocks required0 = .NEVER ↔
      (numTotalGpuBlocks : Int) - required < wm) ∧
    ((numTotalGpuBlocks : Int) - required ≥ wm →
      ((canAllocate numTotalGpuBlocks wm blockSlidingWindow numFreeGpuBlocks required0 = .OK ↔
        (numFreeGpuBlocks : Int) - required ≥ wm) ∧
       (canAllocate numTotalGpuBlocks wm blockSlidingWindow numFreeGpuBlocks required0 = .LATER ↔
        ¬ ((numFreeGpuBlocks : Int) - required ≥ wm)))) := by
  have hwmInt : (wm : Int) = ⌊watermark * numTotalGpuBlocks⌋ := by
    have h0 : (0 : Int) ≤ ⌊watermark * numTotalGpuBlocks⌋ := by
      apply Int.floor_nonneg.mpr
      positivity
    rw [hwm]
    simp only [watermarkBlocks]
    omega
  have hca : canAllocate numTotalGpuBlocks wm blockSlidingWindow numFreeGpuBlocks required0 =
      if (numTotalGpuBlocks : Int) - required < wm then .NEVER
      else if (numFreeGpuBlocks : Int) - required ≥ wm then .OK
      else .LATER := by
    cases blockSlidingWindow <;> (subst hr; rfl)
  rw [hca]
  refine ⟨hwmInt, ?_, ?_⟩
  · constructor
    · intro h
      by_contra hc
      rw [if_neg hc] at h
      split at h <;> simp_all
    · intro h; rw [if_pos h]
  · intro hge
    rw [if_neg (not_lt.mpr hge)]
    constructor
    · constructor
      · intro h
        by_contra hc
        rw [if_neg hc] at h
        simp_all
      · intro h; rw [if_pos h]
    · constructor
      · intro h
        by_contra hc
        rw [if_pos hc] at h
        simp_all
      · intro h; rw [if_neg h]

/-- Witness for `c3_can_allocate_cases`: watermark 1/100, 200 total GPU
blocks (watermark_blocks = 2), 5 free, an 18-token prompt with block size
4 (5 required blocks), no sliding window. -/
theorem c3_can_allocate_cases_witness :
    ((watermarkBlocks (1 / 100) 200 : Int) = ⌊(1 / 100 : ℚ) * (200 : Nat)⌋) ∧
    (canAllocate 200 (watermarkBlocks (1 / 100) 200) none 5 (numRequiredBlocks 18 4) = .NEVER ↔
      ((200 : Nat) : Int) - (numRequiredBlocks 18 4) < watermarkBlocks (1 / 100) 200) ∧
    (((200 : Nat) : Int) - (numRequiredBlocks 18 4) ≥ watermarkBlocks (1 / 100) 200 →
      ((canAllocate 200 (watermarkBlocks (1 / 100) 200) none 5 (numRequiredBlocks 18 4) = .OK ↔
        ((5 : Nat) : Int) - (numRequiredBlocks 18 4) ≥ watermarkBlocks (1 / 100) 200) ∧
       (canAllocate 200 (watermarkBlocks (1 / 100) 200) none 5 (numRequiredBlocks 18 4) = .LATER ↔
        ¬ (((5 : Nat) : Int) - (numRequiredBlocks 18 4) ≥ watermarkBlocks (1 / 100) 200)))) :=
  c3_can_allocate_cases (1 / 100) (by norm_num) 200 5 18 4 none
    (watermarkBlocks (1 / 100) 200) (numRequiredBlocks 18 4) (numRequiredBlocks 18 4)
    rfl rfl rfl

/-! ## NaiveBlockAllocator (vllm/core/block/naive_block.py)

State: `_free_block_indices` (a Python set, modelled as a duplicate-free
list whose order stands for the set's arbitrary iteration order — the
allocator takes `next(iter(...))`, modelled as the list head),
`_refcounter._refcounts` (a dict over `range(num_blocks)`, modelled as a
list indexed by block index), and `_copy_on_writes` (a defaultdict from
source to destination lists, flattened to `(src, dst)` pairs in append
order).  Assertion failures and `NoFreeBlocksError` are `none`. -/

/-- The mutable state of a `NaiveBlockAllocator` over `range(num_blocks)`. -/
structure NaiveAlloc where
  numBlocks : Nat
  free : List Nat
  ref : List Nat
  cows : List (Nat × Nat)
  deriving DecidableEq, Repr

namespace NaiveBlockAllocator

/-- `NaiveBlockAllocator.__init__` with the default
`block_ids = range(num_blocks)`: all indices free, all refcounts 0, no
pending copy-on-writes. -/
def init (numBlocks : Nat) : NaiveAlloc :=
  ⟨numBlocks, List.range numBlocks, List.replicate numBlocks 0, []⟩

/-- `RefCounter.incr`: assert the index is in the domain, bump the count,
return the post-increment value. -/
def incr (s : NaiveAlloc) (i : Nat) : Option (Nat × NaiveAlloc) :=
  if i < s.ref.length then
    some (s.ref.getD i 0 + 1, { s with ref := s.ref.set i (s.ref.getD i 0 + 1) })
  else none

/-- `RefCounter.decr`: assert the index is in the domain and the count is
positive, decrement, return the post-decrement value. -/
def decr (s : NaiveAlloc) (i : Nat) : Option (Nat × NaiveAlloc) :=
  if i < s.ref.length ∧ 0 < s.ref.getD i 0 then
    some (s.ref.getD i 0 - 1, { s with ref := s.ref.set i (s.ref.getD i 0 - 1) })
  else none

/-- `NaiveBlockAllocator._allocate_new_block`: raise `NoFreeBlocksError`
on an empty free set; otherwise take an index from the free set and
increment its refcount. -/
def allocate_new_block (s : NaiveAlloc) : Option (Nat × NaiveAlloc) :=
  match s.free with
  | [] => none
  | i :: rest =>
    match incr s i with
    | none => none
    | some (_, s₁) => some (i, { s₁ with free := rest })

/-- `NaiveBlockAllocator._free_block_index`: decrement the refcount and
return the index to the free set when the count reaches zero. -/
def free_block_index (s : NaiveAlloc) (i : Nat) : Option NaiveAlloc :=
  match decr s i with
  | none => none
  | some (rc, s₁) =>
    if rc = 0 then some { s₁ with free := i :: s₁.free } else some s₁

/-- `NaiveBlockAllocator.free`: the block's slot is detached and its index
freed (the state effect is `_free_block_index`). -/
def free (s : NaiveAlloc) (i : Nat) : Option NaiveAlloc :=
  free_block_index s i

/-- `NaiveBlockAllocator.allocate_mutable`: allocate a new block index
(the returned `NaiveBlock` carries no tokens yet). -/
def allocate_mutable (s : NaiveAlloc) : Option (Nat × NaiveAlloc) :=
  allocate_new_block s

/-- `NaiveBlockAllocator._copy_on_write`: free the source index, allocate
a destination index, and record the pair in `_copy_on_writes`. -/
def copy_on_write (s : NaiveAlloc) (src : Nat) : Option (Nat × NaiveAlloc) :=
  match free_block_index s src with
  | none => none
  | some s₁ =>
    match allocate_new_block s₁ with
    | none => none
    | some (dst, s₂) => some (dst, { s₂ with cows := s₂.cows ++ [(src, dst)] })

/-- `NaiveBlockAllocator.cow_if_not_appendable`: assert the refcount is
non-zero; perform a copy-on-write when the block is shared
(refcount > 1), otherwise return the index unchanged. -/
def cow_if_not_appendable (s : NaiveAlloc) (i : Nat) : Option (Nat × NaiveAlloc) :=
  if i < s.ref.length then
    let rc := s.ref.getD i 0
    if rc = 0 then none
    else if 1 < rc then copy_on_write s i
    else some (i, s)
  else none

/-- `NaiveBlockAllocator.allocate_immutable`: `allocate_mutable` followed
by `NaiveBlock.append_token_ids`, whose state effect is
`cow_if_not_appendable` on the fresh index (a no-op there, since the
fresh refcount is 1). -/
def allocate_immutable (s : NaiveAlloc) : Option (Nat × NaiveAlloc) :=
  match allocate_mutable s with
  | none => none
  | some (i, s₁) => cow_if_not_appendable s₁ i

/-- `NaiveBlockAllocator.fork`: walk the chain of source blocks in order
(`get_all_blocks_recursively` returns first block first), incrementing
each block index's refcount and asserting it was not free; the forked
chain is bound to the same indices in the same order. -/
def fork (s : NaiveAlloc) : List Nat → Option (List Nat × NaiveAlloc)
  | [] => some ([], s)
  | i :: rest =>
    match incr s i with
    | none => none
    | some (rc, s₁) =>
      if rc = 1 then none
      else
        match fork s₁ rest with
        | none => none
        | some (bs, s₂) => some (i :: bs, s₂)

/-- Freeing a list of blocks one by one (`BlockTable.free` frees every
block of a chain). -/
def free_many (s : NaiveAlloc) : List Nat → Option NaiveAlloc
  | [] => some s
  | i :: rest =>
    match free_block_index s i with
    | none => none
    | some s₁ => free_many s₁ rest

/-- `NaiveBlockAllocator.get_num_free_blocks`. -/
def get_num_free_blocks (s : NaiveAlloc) : Nat := s.free.length

end NaiveBlockAllocator

/-- The bookkeeping invariant of the naive allocator: refcounts cover
exactly `range(num_blocks)`, the free set is duplicate-free and within
range, and an index is free iff its refcount is zero. -/
def NaiveInv (s : NaiveAlloc) : Prop :=
  s.ref.length = s.numBlocks ∧
  s.free.Nodup ∧
  (∀ i ∈ s.free, i < s.numBlocks) ∧
  (∀ i, i < s.numBlocks → (i ∈ s.free ↔ s.ref.getD i 0 = 0))

instance (s : NaiveAlloc) : Decidable (NaiveInv s) := by
  unfold NaiveInv
  infer_instance

/-! ### List helper lemmas for refcount updates -/

theorem getD_set_self (l : List Nat) (i v : Nat) (h : i < l.length) :
    (l.set i v).getD i 0 = v := by
  simp [List.getD_eq_getElem?_getD, List.getElem?_set_self, h]

theorem getD_set_ne (l : List Nat) (i j v : Nat) (h : i ≠ j) :
    (l.set i v).getD j 0 = l.getD j 0 := by
  simp [List.getD_eq_getElem?_getD, List.getElem?_set_ne h]

theorem set_getD_self (l : List Nat) (i : Nat) (h : i < l.length) :
    l.set i (l.getD i 0) = l := by
  apply List.ext_getElem?
  intro n
  by_cases hn : n = i
  · subst hn
    simp [List.getElem?_set_self, h, List.getD_eq_getElem?_getD, List.getElem?_eq_getElem h]
  · simp [List.getElem?_set_ne (Ne.symm hn)]

namespace NaiveBlockAllocator

/-- `__init__` establishes the free-set/refcount invariant. -/
theorem inv_init (n : Nat) : NaiveInv (init n) := by
  refine ⟨by simp [init], by simp [init, List.nodup_range], ?_, ?_⟩
  · intro i hi
    simpa [init] using List.mem_range.mp (by simpa [init] using hi)
  · intro i hi
    have hi' : i < n := by simpa [init] using hi
    simp [init, List.mem_range, hi', List.getD_eq_getElem?_getD, List.getElem?_replicate]

/-- `_allocate_new_block` hands out a free index, sets its refcount to 1,
and preserves the invariant. -/
theorem inv_allocate_new_block (s : NaiveAlloc) (i : Nat) (s' : NaiveAlloc)
    (hInv : NaiveInv s) (h : allocate_new_block s = some (i, s')) :
    NaiveInv s' ∧ i ∈ s.free ∧ s.free = i :: s'.free ∧
    s'.ref.getD i 0 = 1 ∧ (∀ j, j ≠ i → s'.ref.getD j 0 = s.ref.getD j 0) ∧
    s'.numBlocks = s.numBlocks ∧ s'.cows = s.cows ∧ s'.ref.length = s.ref.length := by
  obtain ⟨hlen, hnd, hlt, hiff⟩ := hInv
  unfold allocate_new_block at h
  split at h
  · exact absurd h (by simp)
  · next i0 rest hfree =>
    have hi0 : i0 ∈ s.free := by rw [hfree]; simp
    have hi0n : i0 < s.numBlocks := hlt _ hi0
    have hi0len : i0 < s.ref.length := by omega
    have hrc0 : s.ref.getD i0 0 = 0 := (hiff i0 hi0n).mp hi0
    rw [incr, if_pos hi0len] at h
    simp only [Option.some.injEq, Prod.mk.injEq] at h
    obtain ⟨hi, hs'⟩ := h
    subst hi
    subst hs'
    have hndrest : rest.Nodup := (List.nodup_cons.mp (hfree ▸ hnd)).2
    have hirest : i0 ∉ rest := (List.nodup_cons.mp (hfree ▸ hnd)).1
    refine ⟨⟨by simpa using hlen, hndrest, ?_, ?_⟩, hi0, by rw [hfree], ?_, ?_, rfl, rfl, by simp⟩
    · intro j hj
      exact hlt j (by rw [hfree]; exact List.mem_cons_of_mem _ hj)
    · intro j hj
      simp only []
      by_cases hji : j = i0
      · subst hji
        rw [getD_set_self _ _ _ hi0len]
        simp [hirest]
      · rw [getD_set_ne _ _ _ _ (fun h => hji h.symm)]
        rw [← hiff j hj, hfree]
        simp [hji]
    · rw [getD_set_self _ _ _ hi0len, hrc0]
    · intro j hj
      exact getD_set_ne _ _ _ _ (fun h => hj h.symm)

/-- `_free_block_index` decrements the refcount, returns the index to the
free set exactly when the count reaches zero, and preserves the
invariant. -/
theorem inv_free_block_index (s : NaiveAlloc) (i : Nat) (s' : NaiveAlloc)
    (hInv : NaiveInv s) (h : free_block_index s i = some s') :
    NaiveInv s' ∧ 0 < s.ref.getD i 0 ∧ i < s.numBlocks ∧
    s'.ref.getD i 0 = s.ref.getD i 0 - 1 ∧
    (∀ j, j ≠ i → s'.ref.getD j 0 = s.ref.getD j 0) ∧
    s'.free = (if s.ref.getD i 0 = 1 then i :: s.free else s.free) ∧
    s'.numBlocks = s.numBlocks ∧ s'.cows = s.cows ∧ s'.ref.length = s.ref.length := by
  obtain ⟨hlen, hnd, hlt, hiff⟩ := hInv
  by_cases hcond : i < s.ref.length ∧ 0 < s.ref.getD i 0
  swap
  · exfalso
    have hnone : free_block_index s i = none := by
      unfold free_block_index
      rw [decr, if_neg hcond]
    rw [hnone] at h
    exact absurd h (by simp)
  · obtain ⟨hilen, hipos⟩ := hcond
    have hin : i < s.numBlocks := by omega
    have hinotfree : i ∉ s.free := fun hmem => by
      have := (hiff i hin).mp hmem
      omega
    have hd : decr s i =
        some (s.ref.getD i 0 - 1, { s with ref := s.ref.set i (s.ref.getD i 0 - 1) }) := by
      rw [decr, if_pos ⟨hilen, hipos⟩]
    unfold free_block_index at h
    rw [hd] at h
    replace h : (if s.ref.getD i 0 - 1 = 0
        then some { s with ref := s.ref.set i (s.ref.getD i 0 - 1), free := i :: s.free }
        else some { s with ref := s.ref.set i (s.ref.getD i 0 - 1) }) = some s' := h
    by_cases hrc1 : s.ref.getD i 0 = 1
    · rw [if_pos (by omega : s.ref.getD i 0 - 1 = 0)] at h
      obtain hs' := Option.some.inj h
      subst hs'
      refine ⟨⟨by simpa using hlen, by simp [hnd, hinotfree], ?_, ?_⟩, hipos, hin, ?_, ?_,
        by rw [if_pos hrc1], rfl, rfl, by simp⟩
      · intro j hj
        rcases List.mem_cons.mp hj with hj | hj
        · subst hj; exact hin
        · exact hlt j hj
      · intro j hj
        simp only [List.mem_cons]
        by_cases hji : j = i
        · subst hji
          rw [getD_set_self _ _ _ hilen, hrc1]
          simp
        · rw [getD_set_ne _ _ _ _ (fun h => hji h.symm)]
          simp only [hji, false_or]
          exact hiff j hj
      · rw [getD_set_self _ _ _ hilen]
      · intro j hj
        exact getD_set_ne _ _ _ _ (fun h => hj h.symm)
    · rw [if_neg (by omega : ¬ (s.ref.getD i 0 - 1 = 0))] at h
      obtain hs' := Option.some.inj h
      subst hs'
      refine ⟨⟨by simpa using hlen, hnd, hlt, ?_⟩, hipos, hin, ?_, ?_,
        by rw [if_neg hrc1], rfl, rfl, by simp⟩
      · intro j hj
        by_cases hji : j = i
        · subst hji
          rw [getD_set_self _ _ _ hilen]
          constructor
          · intro hmem; exact absurd hmem hinotfree
          · intro hz; omega
        · rw [getD_set_ne _ _ _ _ (fun h => hji h.symm)]
          exact hiff j hj
      · rw [getD_set_self _ _ _ hilen]
      · intro j hj
        exact getD_set_ne _ _ _ _ (fun h => hj h.symm)

/-- `fork` preserves the free-set/refcount invariant: each chain index has
a positive refcount (asserted), so incrementing it never touches the free
set. -/
theorem inv_fork (chain : List Nat) :
    ∀ s bs s', NaiveInv s → fork s chain = some (bs, s') → NaiveInv s' := by
  induction chain with
  | nil =>
    intro s bs s' hInv h
    simp only [fork, Option.some.injEq, Prod.mk.injEq] at h
    rw [← h.2]
    exact hInv
  | cons i rest ih =>
    intro s bs s' hInv h
    obtain ⟨hlen, hnd, hlt, hiff⟩ := hInv
    unfold fork at h
    rw [incr] at h
    by_cases hilen : i < s.ref.length
    swap
    · rw [if_neg hilen] at h
      exact absurd h (by simp)
    · rw [if_pos hilen] at h
      by_cases hrc : s.ref.getD i 0 + 1 = 1
      · replace h : (none : Option (List Nat × NaiveAlloc)) = some (bs, s') := by
          rw [← h]
          show _ = (if s.ref.getD i 0 + 1 = 1 then none else _)
          rw [if_pos hrc]
        exact absurd h.symm (by simp)
      · replace h : (match fork { s with ref := s.ref.set i (s.ref.getD i 0 + 1) } rest with
            | none => none
            | some (bs, s₂) => some (i :: bs, s₂)) = some (bs, s') := by
          rw [← h]
          show _ = (if s.ref.getD i 0 + 1 = 1 then none else _)
          rw [if_neg hrc]
        have hipos : 0 < s.ref.getD i 0 := by omega
        have hin : i < s.numBlocks := by omega
        have hinotfree : i ∉ s.free := fun hmem => by
          have := (hiff i hin).mp hmem
          omega
        have hInv₁ : NaiveInv { s with ref := s.ref.set i (s.ref.getD i 0 + 1) } := by
          refine ⟨by simpa using hlen, hnd, hlt, ?_⟩
          intro j hj
          by_cases hji : j = i
          · subst hji
            rw [getD_set_self _ _ _ hilen]
            constructor
            · intro hmem; exact absurd hmem hinotfree
            · intro hz; omega
          · rw [getD_set_ne _ _ _ _ (fun hh => hji hh.symm)]
            exact hiff j hj
        match hfk : fork { s with ref := s.ref.set i (s.ref.getD i 0 + 1) } rest with
        | none => rw [hfk] at h; exact absurd h (by simp)
        | some (bs₂, s₂) =>
          rw [hfk] at h
          simp only [Option.some.injEq, Prod.mk.injEq] at h
          rw [← h.2]
          exact ih _ bs₂ s₂ hInv₁ hfk

/-- `cow_if_not_appendable` preserves the free-set/refcount invariant. -/
theorem inv_cow_if_not_appendable (s : NaiveAlloc) (i j : Nat) (s' : NaiveAlloc)
    (hInv : NaiveInv s) (h : cow_if_not_appendable s i = some (j, s')) :
    NaiveInv s' := by
  unfold cow_if_not_appendable at h
  by_cases hilen : i < s.ref.length
  swap
  · rw [if_neg hilen] at h; exact absurd h (by simp)
  rw [if_pos hilen] at h
  simp only [] at h
  by_cases h0 : s.ref.getD i 0 = 0
  · rw [if_pos h0] at h; exact absurd h (by simp)
  rw [if_neg h0] at h
  by_cases h1 : 1 < s.ref.getD i 0
  · rw [if_pos h1] at h
    unfold copy_on_write at h
    match hfb : free_block_index s i with
    | none => rw [hfb] at h; exact absurd h (by simp)
    | some s₁ =>
      rw [hfb] at h
      replace h : (match allocate_new_block s₁ with
          | none => none
          | some (dst, s₂) =>
            some (dst, { s₂ with cows := s₂.cows ++ [(i, dst)] })) = some (j, s') := h
      have hInv₁ := (inv_free_block_index s i s₁ hInv hfb).1
      match hal : allocate_new_block s₁ with
      | none => rw [hal] at h; exact absurd h (by simp)
      | some (dst, s₂) =>
        rw [hal] at h
        have hInv₂ := (inv_allocate_new_block s₁ dst s₂ hInv₁ hal).1
        simp only [Option.some.injEq, Prod.mk.injEq] at h
        rw [← h.2]
        obtain ⟨a, b, c, d⟩ := hInv₂
        exact ⟨a, b, c, d⟩
  · rw [if_neg h1] at h
    simp only [Option.some.injEq, Prod.mk.injEq] at h
    rw [← h.2]
    exact hInv

/-- `allocate_immutable` (allocate, then the copy-on-write check from
`append_token_ids`) preserves the invariant. -/
theorem inv_allocate_immutable (s : NaiveAlloc) (i : Nat) (s' : NaiveAlloc)
    (hInv : NaiveInv s) (h : allocate_immutable s = some (i, s')) :
    NaiveInv s' := by
  unfold allocate_immutable allocate_mutable at h
  match hal : allocate_new_block s with
  | none => rw [hal] at h; exact absurd h (by simp)
  | some (i₁, s₁) =>
    rw [hal] at h
    exact inv_cow_if_not_appendable s₁ i₁ i s' (inv_allocate_new_block s i₁ s₁ hInv hal).1 h

/-- The bookkeeping count: under the invariant,
`|free| + |{i < num_blocks : refcount(i) > 0}| = num_blocks`. -/
theorem free_plus_referenced (s : NaiveAlloc) (hInv : NaiveInv s) :
    get_num_free_blocks s +
      ((List.range s.numBlocks).filter (fun i => 0 < s.ref.getD i 0)).length =
      s.numBlocks := by
  obtain ⟨hlen, hnd, hlt, hiff⟩ := hInv
  have hsplit := List.length_eq_length_filter_add
    (l := List.range s.numBlocks) (f := fun i => s.ref.getD i 0 == 0)
  rw [List.length_range] at hsplit
  have hfree : s.free.length =
      ((List.range s.numBlocks).filter (fun i => s.ref.getD i 0 == 0)).length := by
    apply List.Perm.length_eq
    apply List.perm_of_nodup_nodup_toFinset_eq hnd (List.Nodup.filter _ (List.nodup_range _))
    ext j
    simp only [List.mem_toFinset, List.mem_filter, List.mem_range, beq_iff_eq]
    constructor
    · intro hj
      exact ⟨hlt j hj, (hiff j (hlt j hj)).mp hj⟩
    · intro ⟨hj1, hj2⟩
      exact (hiff j hj1).mpr hj2
  have hcongr : (List.range s.numBlocks).filter (fun i => 0 < s.ref.getD i 0) =
      (List.range s.numBlocks).filter (fun i => !(s.ref.getD i 0 == 0)) := by
    apply List.filter_congr
    intro x _
    cases s.ref.getD x 0 <;> simp
  rw [get_num_free_blocks, hfree, hcongr]
  omega

/-- `free_many` distributes over list append. -/
theorem free_many_append (l₁ l₂ : List Nat) :
    ∀ s, free_many s (l₁ ++ l₂) =
      match free_many s l₁ with
      | none => none
      | some s₁ => free_many s₁ l₂ := by
  induction l₁ with
  | nil => intro s; rfl
  | cons i rest ih =>
    intro s
    have hL : free_many s ((i :: rest) ++ l₂) =
        (match free_block_index s i with
         | none => none
         | some s₁ => free_many s₁ (rest ++ l₂)) := rfl
    have hR : free_many s (i :: rest) =
        (match free_block_index s i with
         | none => none
         | some s₁ => free_many s₁ rest) := rfl
    rw [hL, hR]
    match hfb : free_block_index s i with
    | none => rfl
    | some s₁ => exact ih s₁

end NaiveBlockAllocator

/-- C7: in the `NaiveBlockAllocator`, the free-set/refcount invariant — a
block index is in the free set iff its refcount is 0 (together with
bookkeeping well-formedness) — holds after construction and is preserved
by `allocate_mutable`, `allocate_immutable`, `free`, `fork` and
`cow_if_not_appendable`; consequently the number of free indices plus the
number of indices with positive refcount equals the total number of
blocks. -/
theorem c7_naive_free_iff_refcount_zero :
    (∀ n, NaiveInv (NaiveBlockAllocator.init n)) ∧
    (∀ s i s', NaiveInv s → NaiveBlockAllocator.allocate_mutable s = some (i, s') →
      NaiveInv s') ∧
    (∀ s i s', NaiveInv s → NaiveBlockAllocator.allocate_immutable s = some (i, s') →
      NaiveInv s') ∧
    (∀ s i s', NaiveInv s → NaiveBlockAllocator.free s i = some s' → NaiveInv s') ∧
    (∀ s chain bs s', NaiveInv s → NaiveBlockAllocator.fork s chain = some (bs, s') →
      NaiveInv s') ∧
    (∀ s i j s', NaiveInv s → NaiveBlockAllocator.cow_if_not_appendable s i = some (j, s') →
      NaiveInv s') ∧
    (∀ s, NaiveInv s →
      NaiveBlockAllocator.get_num_free_blocks s +
        ((List.range s.numBlocks).filter (fun i => 0 < s.ref.getD i 0)).length =
        s.numBlocks) :=
  ⟨NaiveBlockAllocator.inv_init,
   fun s i s' hInv h =>
     (NaiveBlockAllocator.inv_allocate_new_block s i s' hInv h).1,
   fun s i s' hInv h => NaiveBlockAllocator.inv_allocate_immutable s i s' hInv h,
   fun s i s' hInv h => (NaiveBlockAllocator.inv_free_block_index s i s' hInv h).1,
   fun s chain bs s' hInv h => NaiveBlockAllocator.inv_fork chain s bs s' hInv h,
   fun s i j s' hInv h => NaiveBlockAllocator.inv_cow_if_not_appendable s i j s' hInv h,
   fun s hInv => NaiveBlockAllocator.free_plus_referenced s hInv⟩

/-- Witness for `c7_naive_free_iff_refcount_zero`: the invariant holds for
a fresh 3-block allocator, and is preserved by a concrete `free` call on
the state with block 0 held once and block 1 free. -/
theorem c7_naive_free_iff_refcount_zero_witness :
    NaiveInv (NaiveBlockAllocator.init 3) ∧
    NaiveInv (⟨2, [0, 1], [0, 0], []⟩ : NaiveAlloc) ∧
    NaiveBlockAllocator.get_num_free_blocks (NaiveBlockAllocator.init 3) +
      ((List.range (NaiveBlockAllocator.init 3).numBlocks).filter
        (fun i => 0 < (NaiveBlockAllocator.init 3).ref.getD i 0)).length =
      (NaiveBlockAllocator.init 3).numBlocks :=
  ⟨c7_naive_free_iff_refcount_zero.1 3,
   c7_naive_free_iff_refcount_zero.2.2.2.1 ⟨2, [1], [1, 0], []⟩ 0 ⟨2, [0, 1], [0, 0], []⟩
     (by decide) (by decide),
   c7_naive_free_iff_refcount_zero.2.2.2.2.2.2 (NaiveBlockAllocator.init 3)
     (c7_naive_free_iff_refcount_zero.1 3)⟩

/-- C4: for a block index `i` with refcount ≥ 1, `cow_if_not_appendable`
returns `i` with the state unchanged when refcount(i) = 1; when
refcount(i) > 1 (and a free block exists) it decrements `i`'s refcount by
one — leaving it still referenced, so other holders observe it unchanged —
allocates a fresh index `dst ≠ i` (previously free, now refcount 1),
records `(i, dst)` in the pending copy-on-write list, and returns `dst`;
all other refcounts are untouched. -/
theorem c4_cow_if_not_appendable (s : NaiveAlloc) (i : Nat)
    (hInv : NaiveInv s) (hin : i < s.numBlocks) (hrc : 1 ≤ s.ref.getD i 0) :
    (s.ref.getD i 0 = 1 → NaiveBlockAllocator.cow_if_not_appendable s i = some (i, s)) ∧
    (1 < s.ref.getD i 0 → s.free ≠ [] →
      ∃ dst s', NaiveBlockAllocator.cow_if_not_appendable s i = some (dst, s') ∧
        dst ≠ i ∧ dst ∈ s.free ∧
        s'.ref.getD i 0 = s.ref.getD i 0 - 1 ∧ 1 ≤ s'.ref.getD i 0 ∧
        i ∉ s'.free ∧
        s'.ref.getD dst 0 = 1 ∧
        (∀ j, j ≠ i → j ≠ dst → s'.ref.getD j 0 = s.ref.getD j 0) ∧
        s'.cows = s.cows ++ [(i, dst)] ∧
        s'.numBlocks = s.numBlocks) := by
  have hlen := hInv.1
  have hilen : i < s.ref.length := by omega
  constructor
  · intro h1
    unfold NaiveBlockAllocator.cow_if_not_appendable
    rw [if_pos hilen]
    show (if s.ref.getD i 0 = 0 then none
      else if 1 < s.ref.getD i 0 then NaiveBlockAllocator.copy_on_write s i
      else some (i, s)) = some (i, s)
    rw [if_neg (by omega), if_neg (by omega)]
  · intro h1 hfree
    have hinotfree : i ∉ s.free := fun hmem => by
      have := (hInv.2.2.2 i hin).mp hmem
      omega
    have hfb_some : ∃ s₁, NaiveBlockAllocator.free_block_index s i = some s₁ := by
      unfold NaiveBlockAllocator.free_block_index
      rw [NaiveBlockAllocator.decr, if_pos ⟨hilen, by omega⟩]
      show (∃ s₁, (if s.ref.getD i 0 - 1 = 0 then _ else _) = some s₁)
      rw [if_neg (by omega : ¬ (s.ref.getD i 0 - 1 = 0))]
      exact ⟨_, rfl⟩
    obtain ⟨s₁, hfb⟩ := hfb_some
    obtain ⟨hInv₁, _, _, hs₁i, hs₁j, hs₁free, hs₁nb, hs₁cows, hs₁len⟩ :=
      NaiveBlockAllocator.inv_free_block_index s i s₁ hInv hfb
    rw [if_neg (by omega : ¬ (s.ref.getD i 0 = 1))] at hs₁free
    have hal_some : ∃ p : Nat × NaiveAlloc, NaiveBlockAllocator.allocate_new_block s₁ = some p := by
      unfold NaiveBlockAllocator.allocate_new_block
      cases hfl : s₁.free with
      | nil => rw [hs₁free] at hfl; exact absurd hfl hfree
      | cons d rest =>
        have hd : d < s₁.ref.length := by
          have hmem : d ∈ s₁.free := by rw [hfl]; simp
          have := hInv₁.2.2.1 d hmem
          have := hInv₁.1
          omega
        have hincr : NaiveBlockAllocator.incr s₁ d =
            some (s₁.ref.getD d 0 + 1, { s₁ with ref := s₁.ref.set d (s₁.ref.getD d 0 + 1) }) := by
          rw [NaiveBlockAllocator.incr, if_pos hd]
        show ∃ p : Nat × NaiveAlloc, (match NaiveBlockAllocator.incr s₁ d with
          | none => none
          | some (_, s₂) => some (d, { s₂ with free := rest })) = some p
        rw [hincr]
        exact ⟨_, rfl⟩
    obtain ⟨⟨dst, s₂⟩, hal⟩ := hal_some
    obtain ⟨hInv₂, hdstfree, hfree_eq, hs₂dst, hs₂j, hs₂nb, hs₂cows, hs₂len⟩ :=
      NaiveBlockAllocator.inv_allocate_new_block s₁ dst s₂ hInv₁ hal
    have hdsts : dst ∈ s.free := by rw [← hs₁free]; exact hdstfree
    have hdstne : dst ≠ i := fun hdi => hinotfree (hdi ▸ hdsts)
    have hcow : NaiveBlockAllocator.cow_if_not_appendable s i =
        some (dst, { s₂ with cows := s₂.cows ++ [(i, dst)] }) := by
      unfold NaiveBlockAllocator.cow_if_not_appendable
      rw [if_pos hilen]
      show (if s.ref.getD i 0 = 0 then none
        else if 1 < s.ref.getD i 0 then NaiveBlockAllocator.copy_on_write s i
        else some (i, s)) = _
      rw [if_neg (by omega), if_pos h1]
      unfold NaiveBlockAllocator.copy_on_write
      rw [hfb]
      show (match NaiveBlockAllocator.allocate_new_block s₁ with
        | none => none
        | some (dst, s₂) => some (dst, { s₂ with cows := s₂.cows ++ [(i, dst)] })) = _
      rw [hal]
    refine ⟨dst, { s₂ with cows := s₂.cows ++ [(i, dst)] }, hcow, hdstne, hdsts, ?_, ?_, ?_,
      ?_, ?_, ?_, ?_⟩
    · show s₂.ref.getD i 0 = _
      rw [hs₂j i (fun hh => hdstne hh.symm), hs₁i]
    · show 1 ≤ s₂.ref.getD i 0
      rw [hs₂j i (fun hh => hdstne hh.symm), hs₁i]
      omega
    · show i ∉ s₂.free
      intro hmem
      apply hinotfree
      rw [← hs₁free, hfree_eq]
      exact List.mem_cons_of_mem _ hmem
    · exact hs₂dst
    · intro j hji hjdst
      show s₂.ref.getD j 0 = _
      rw [hs₂j j hjdst, hs₁j j hji]
    · show s₂.cows ++ [(i, dst)] = s.cows ++ [(i, dst)]
      rw [hs₂cows, hs₁cows]
    · show s₂.numBlocks = s.numBlocks
      rw [hs₂nb, hs₁nb]

/-- Witness for `c4_cow_if_not_appendable`: a 3-block allocator with
block 0 held twice and blocks 1, 2 free. -/
theorem c4_cow_if_not_appendable_witness :
    (((⟨3, [1, 2], [2, 0, 0], []⟩ : NaiveAlloc).ref.getD 0 0 = 1 →
      NaiveBlockAllocator.cow_if_not_appendable ⟨3, [1, 2], [2, 0, 0], []⟩ 0 =
        some (0, ⟨3, [1, 2], [2, 0, 0], []⟩)) ∧
     (1 < (⟨3, [1, 2], [2, 0, 0], []⟩ : NaiveAlloc).ref.getD 0 0 →
      (⟨3, [1, 2], [2, 0, 0], []⟩ : NaiveAlloc).free ≠ [] →
      ∃ dst s', NaiveBlockAllocator.cow_if_not_appendable ⟨3, [1, 2], [2, 0, 0], []⟩ 0 =
          some (dst, s') ∧
        dst ≠ 0 ∧ dst ∈ (⟨3, [1, 2], [2, 0, 0], []⟩ : NaiveAlloc).free ∧
        s'.ref.getD 0 0 = (⟨3, [1, 2], [2, 0, 0], []⟩ : NaiveAlloc).ref.getD 0 0 - 1 ∧
        1 ≤ s'.ref.getD 0 0 ∧
        0 ∉ s'.free ∧
        s'.ref.getD dst 0 = 1 ∧
        (∀ j, j ≠ 0 → j ≠ dst →
          s'.ref.getD j 0 = (⟨3, [1, 2], [2, 0, 0], []⟩ : NaiveAlloc).ref.getD j 0) ∧
        s'.cows = (⟨3, [1, 2], [2, 0, 0], []⟩ : NaiveAlloc).cows ++ [(0, dst)] ∧
        s'.numBlocks = (⟨3, [1, 2], [2, 0, 0], []⟩ : NaiveAlloc).numBlocks)) :=
  c4_cow_if_not_appendable ⟨3, [1, 2], [2, 0, 0], []⟩ 0 (by decide) (by decide) (by decide)

/-- C8: for a chain of distinct slot indices all with refcount ≥ 1,
`fork` returns a parallel chain bound to the same slot indices in the
same order, incrementing each shared slot's refcount by exactly one and
leaving everything else (free set, other refcounts, pending CoWs)
untouched; subsequently freeing every forked block restores the exact
pre-fork allocator state. -/
theorem c8_fork_free_roundtrip (chain : List Nat) :
    ∀ s : NaiveAlloc, chain.Nodup →
    (∀ i ∈ chain, i < s.ref.length) →
    (∀ i ∈ chain, 1 ≤ s.ref.getD i 0) →
    ∃ s', NaiveBlockAllocator.fork s chain = some (chain, s') ∧
      s'.numBlocks = s.numBlocks ∧ s'.free = s.free ∧ s'.cows = s.cows ∧
      s'.ref.length = s.ref.length ∧
      (∀ i ∈ chain, s'.ref.getD i 0 = s.ref.getD i 0 + 1) ∧
      (∀ j, j ∉ chain → s'.ref.getD j 0 = s.ref.getD j 0) ∧
      NaiveBlockAllocator.free_many s' chain.reverse = some s := by
  induction chain with
  | nil =>
    intro s _ _ _
    exact ⟨s, rfl, rfl, rfl, rfl, rfl, by simp, fun j _ => rfl, rfl⟩
  | cons i rest ih =>
    intro s hnd hdom hrc
    have hilen : i < s.ref.length := hdom i (by simp)
    have hipos : 1 ≤ s.ref.getD i 0 := hrc i (by simp)
    have hirest : i ∉ rest := (List.nodup_cons.mp hnd).1
    have hndrest : rest.Nodup := (List.nodup_cons.mp hnd).2
    have hincr : NaiveBlockAllocator.incr s i =
        some (s.ref.getD i 0 + 1, { s with ref := s.ref.set i (s.ref.getD i 0 + 1) }) := by
      rw [NaiveBlockAllocator.incr, if_pos hilen]
    obtain ⟨s₂, hfork₂, hnb₂, hfree₂, hcows₂, hlen₂, hin₂, hout₂, hfm₂⟩ :=
      ih { s with ref := s.ref.set i (s.ref.getD i 0 + 1) } hndrest
        (fun j hj => by simpa using hdom j (List.mem_cons_of_mem _ hj))
        (fun j hj => by
          have hji : j ≠ i := fun hh => hirest (hh ▸ hj)
          rw [show ({ s with ref := s.ref.set i (s.ref.getD i 0 + 1) } : NaiveAlloc).ref =
            s.ref.set i (s.ref.getD i 0 + 1) from rfl, getD_set_ne _ _ _ _ (fun hh => hji hh.symm)]
          exact hrc j (List.mem_cons_of_mem _ hj))
    have hforkres : NaiveBlockAllocator.fork s (i :: rest) = some (i :: rest, s₂) := by
      show (match NaiveBlockAllocator.incr s i with
        | none => none
        | some (rc, s₁) =>
          if rc = 1 then none
          else
            match NaiveBlockAllocator.fork s₁ rest with
            | none => none
            | some (bs, s₃) => some (i :: bs, s₃)) = _
      rw [hincr]
      show (if s.ref.getD i 0 + 1 = 1 then none
        else
          match NaiveBlockAllocator.fork { s with ref := s.ref.set i (s.ref.getD i 0 + 1) } rest with
          | none => none
          | some (bs, s₃) => some (i :: bs, s₃)) = _
      rw [if_neg (by omega), hfork₂]
    have hs₁i : ({ s with ref := s.ref.set i (s.ref.getD i 0 + 1) } : NaiveAlloc).ref.getD i 0 =
        s.ref.getD i 0 + 1 := getD_set_self _ _ _ hilen
    have hfbi : NaiveBlockAllocator.free_block_index
        { s with ref := s.ref.set i (s.ref.getD i 0 + 1) } i = some s := by
      have hdecr : NaiveBlockAllocator.decr { s with ref := s.ref.set i (s.ref.getD i 0 + 1) } i =
          some (s.ref.getD i 0, s) := by
        rw [NaiveBlockAllocator.decr, if_pos ⟨by simpa using hilen, by rw [hs₁i]; omega⟩]
        have hval : ({ s with ref := s.ref.set i (s.ref.getD i 0 + 1) } : NaiveAlloc).ref.getD i 0 - 1 =
            s.ref.getD i 0 := by rw [hs₁i]; omega
        rw [hval]
        have hset : (s.ref.set i (s.ref.getD i 0 + 1)).set i (s.ref.getD i 0) = s.ref := by
          rw [List.set_set]
          exact set_getD_self _ _ hilen
        show some (s.ref.getD i 0,
          ({ s with ref := (s.ref.set i (s.ref.getD i 0 + 1)).set i (s.ref.getD i 0) } : NaiveAlloc)) = _
        rw [hset]
      unfold NaiveBlockAllocator.free_block_index
      rw [hdecr]
      show (if s.ref.getD i 0 = 0 then some { s with free := i :: s.free } else some s) = some s
      rw [if_neg (by omega)]
    refine ⟨s₂, hforkres, by rw [hnb₂], by rw [hfree₂], by rw [hcows₂],
      by rw [hlen₂]; simp, ?_, ?_, ?_⟩
    · intro j hj
      rcases List.mem_cons.mp hj with hj | hj
      · subst hj
        rw [hout₂ j hirest, hs₁i]
      · rw [hin₂ j hj,
          show ({ s with ref := s.ref.set i (s.ref.getD i 0 + 1) } : NaiveAlloc).ref =
            s.ref.set i (s.ref.getD i 0 + 1) from rfl,
          getD_set_ne _ _ _ _ (fun hh => (fun hji : j ≠ i => hji hh.symm)
            (fun hh2 => hirest (hh2 ▸ hj)))]
    · intro j hj
      have hji : j ≠ i := fun hh => hj (by rw [hh]; simp)
      have hjrest : j ∉ rest := fun hh => hj (List.mem_cons_of_mem _ hh)
      rw [hout₂ j hjrest,
        show ({ s with ref := s.ref.set i (s.ref.getD i 0 + 1) } : NaiveAlloc).ref =
          s.ref.set i (s.ref.getD i 0 + 1) from rfl,
        getD_set_ne _ _ _ _ (fun hh => hji hh.symm)]
    · rw [List.reverse_cons, NaiveBlockAllocator.free_many_append, hfm₂]
      show NaiveBlockAllocator.free_many { s with ref := s.ref.set i (s.ref.getD i 0 + 1) } [i] =
        some s
      show (match NaiveBlockAllocator.free_block_index
          { s with ref := s.ref.set i (s.ref.getD i 0 + 1) } i with
        | none => none
        | some s₃ => NaiveBlockAllocator.free_many s₃ []) = some s
      rw [hfbi]
      rfl

/-- Witness for `c8_fork_free_roundtrip`: a 4-block allocator holding the
two-block chain `[0, 1]` once, with blocks 2, 3 free. -/
theorem c8_fork_free_roundtrip_witness :
    ∃ s', NaiveBlockAllocator.fork ⟨4, [2, 3], [1, 1, 0, 0], []⟩ [0, 1] = some ([0, 1], s') ∧
      s'.numBlocks = (⟨4, [2, 3], [1, 1, 0, 0], []⟩ : NaiveAlloc).numBlocks ∧
      s'.free = (⟨4, [2, 3], [1, 1, 0, 0], []⟩ : NaiveAlloc).free ∧
      s'.cows = (⟨4, [2, 3], [1, 1, 0, 0], []⟩ : NaiveAlloc).cows ∧
      s'.ref.length = (⟨4, [2, 3], [1, 1, 0, 0], []⟩ : NaiveAlloc).ref.length ∧
      (∀ i ∈ [0, 1], s'.ref.getD i 0 =
        (⟨4, [2, 3], [1, 1, 0, 0], []⟩ : NaiveAlloc).ref.getD i 0 + 1) ∧
      (∀ j, j ∉ [0, 1] → s'.ref.getD j 0 =
        (⟨4, [2, 3], [1, 1, 0, 0], []⟩ : NaiveAlloc).ref.getD j 0) ∧
      NaiveBlockAllocator.free_many s' ([0, 1].reverse) =
        some ⟨4, [2, 3], [1, 1, 0, 0], []⟩ :=
  c8_fork_free_roundtrip [0, 1] ⟨4, [2, 3], [1, 1, 0, 0], []⟩
    (by decide) (by decide) (by decide)

/-! ## Scheduler (vllm/core/scheduler.py)

The scheduler's three deques hold `SequenceGroup`s whose sequences carry
a status and a token count.  The block manager is abstracted as a record
of operations over an opaque state `σ` (the scheduler only ever calls
these methods); `vllm/sequence.py` is not among the analysed sources, so
`get_max_num_running_seqs` is an opaque per-group quantity.  Python dicts
(`blocks_to_swap_in/out`, `blocks_to_copy`) are association lists with
insert-or-overwrite update; `deque.appendleft` is `::`; the FCFS policy's
`sorted` is a stable insertion sort on arrival time. -/

/-- `SequenceStatus` of `vllm/sequence.py` (statuses used by the
scheduler). -/
inductive SeqStatus
  | WAITING
  | RUNNING
  | SWAPPED
  | FINISHED_STOPPED
  | FINISHED_LENGTH_CAPPED
  | FINISHED_ABORTED
  | FINISHED_IGNORED
  deriving DecidableEq, Repr

/-- A `Sequence` as the scheduler sees it: an id, its current token count
(`get_len()`), and a status. -/
structure Seq where
  seqId : Nat
  len : Nat
  status : SeqStatus
  deriving DecidableEq, Repr

instance : Inhabited Seq := ⟨⟨0, 0, SeqStatus.WAITING⟩⟩

/-- A `SequenceGroup`: request id, member sequences, the opaque
`get_max_num_running_seqs()` value, `lora_int_id` (0 when no LoRA
request), and the arrival time used by the FCFS policy. -/
structure SeqGroup where
  requestId : Nat
  seqs : List Seq
  maxNumRunningSeqs : Nat
  loraIntId : Nat
  arrivalTime : Nat
  deriving DecidableEq, Repr

/-- `SequenceGroup.get_seqs(status=st)`. -/
def SeqGroup.getSeqs (g : SeqGroup) (st : SeqStatus) : List Seq :=
  g.seqs.filter (fun s => s.status == st)

/-- Set the status of every sequence currently in status `a` to `b`
(the `for seq in seq_group.get_seqs(status=a): seq.status = b` idiom). -/
def SeqGroup.markStatus (g : SeqGroup) (a b : SeqStatus) : SeqGroup :=
  { g with seqs := g.seqs.map (fun s => if s.status == a then { s with status := b } else s) }

/-- The scheduler-relevant part of `SchedulerConfig` (`LoRAConfig`
collapsed into `loraEnabled`/`maxLoras`). -/
structure SchedConfig where
  maxNumBatchedTokens : Nat
  maxNumSeqs : Nat
  maxPaddings : Nat
  maxModelLen : Nat
  loraEnabled : Bool
  maxLoras : Nat
  deriving DecidableEq, Repr

/-- `self.prompt_limit = min(max_model_len, max_num_batched_tokens)`. -/
def SchedConfig.promptLimit (cfg : SchedConfig) : Nat :=
  min cfg.maxModelLen cfg.maxNumBatchedTokens

/-- The `BlockSpaceManager` interface as used by `Scheduler._schedule`,
over an opaque manager state `σ`. -/
structure BlockManagerOps (σ : Type) where
  canAllocate : σ → SeqGroup → AllocStatus
  allocate : σ → SeqGroup → σ
  canAppendSlot : σ → SeqGroup → Bool
  appendSlot : σ → Seq → σ × Option (Nat × Nat)
  canSwapIn : σ → SeqGroup → Bool
  swapIn : σ → SeqGroup → σ × List (Nat × Nat)
  canSwapOut : σ → SeqGroup → Bool
  swapOut : σ → SeqGroup → σ × List (Nat × Nat)
  free : σ → Seq → σ

/-- The scheduler's mutable state: the three queues and the block-manager
state. -/
structure SchedulerState (σ : Type) where
  waiting : List SeqGroup
  running : List SeqGroup
  swapped : List SeqGroup
  bm : σ

/-- `SchedulerOutputs` (the record built at the end of `_schedule`). -/
structure SchedulerOutputs where
  scheduledSeqGroups : List SeqGroup
  promptRun : Bool
  numBatchedTokens : Nat
  blocksToSwapIn : List (Nat × Nat)
  blocksToSwapOut : List (Nat × Nat)
  blocksToCopy : List (Nat × List Nat)
  ignoredSeqGroups : List SeqGroup
  deriving DecidableEq, Repr

/-- `dict.__setitem__`: overwrite the value of an existing key in place,
or append a new key at the end. -/
def setKey (d : List (Nat × Nat)) (k v : Nat) : List (Nat × Nat) :=
  if d.any (fun p => p.1 == k) then
    d.map (fun p => if p.1 == k then (k, v) else p)
  else d ++ [(k, v)]

/-- `dict.update(mapping)`: set every key of `m` in `d`. -/
def dictUpdate (d m : List (Nat × Nat)) : List (Nat × Nat) :=
  m.foldl (fun acc p => setKey acc p.1 p.2) d

/-- The `blocks_to_copy` accumulation in `Scheduler._append_slot`:
`blocks_to_copy[src].append(dst)`, creating the entry if needed. -/
def addCopy (d : List (Nat × List Nat)) (src dst : Nat) : List (Nat × List Nat) :=
  if d.any (fun p => p.1 == src) then
    d.map (fun p => if p.1 == src then (p.1, p.2 ++ [dst]) else p)
  else d ++ [(src, [dst])]

/-- `PolicyFactory` FCFS: `sorted` (stable) by ascending arrival time. -/
def sortFcfs (l : List SeqGroup) : List SeqGroup :=
  List.insertionSort (fun a b => a.arrivalTime ≤ b.arrivalTime) l

/-- `SchedulerOutputs._sort_by_lora_ids`: sort scheduled groups by
`(lora_int_id, request_id)` (stable). -/
def sortByLoraIds (l : List SeqGroup) : List SeqGroup :=
  List.insertionSort
    (fun a b => a.loraIntId < b.loraIntId ∨ (a.loraIntId = b.loraIntId ∧ a.requestId ≤ b.requestId)) l

/-- `SchedulerOutputs.__init__`: record the fields, and when any LoRA
request is present among the scheduled groups (`num_loras > 0`, which
holds whenever the scheduled list is non-empty since `None` also counts)
sort them by LoRA id.  The `assert not (blocks_to_swap_in and
blocks_to_swap_out)` is the property proved as claim C1. -/
def mkSchedulerOutputs (scheduled : List SeqGroup) (promptRun : Bool)
    (numBatchedTokens : Nat) (swapIn swapOut : List (Nat × Nat))
    (copy : List (Nat × List Nat)) (ignored : List SeqGroup) : SchedulerOutputs :=
  let numLoras := ((scheduled.map (fun g => g.loraIntId)).dedup).length
  { scheduledSeqGroups := if 0 < numLoras then sortByLoraIds scheduled else scheduled
    promptRun := promptRun
    numBatchedTokens := numBatchedTokens
    blocksToSwapIn := swapIn
    blocksToSwapOut := swapOut
    blocksToCopy := copy
    ignoredSeqGroups := ignored }

/-- `max(seq_lens)` (Python `max` on a non-empty list; 0 for `[]`, which
only occurs together with the `if seq_lens else 0` guard). -/
def maxNat (l : List Nat) : Nat := l.foldr max 0

/-- `PreemptionMode` of `scheduler.py`. -/
inductive PreemptionMode
  | SWAP
  | RECOMPUTE
  deriving DecidableEq, Repr

namespace Scheduler

/-- `Scheduler._append_slot` for one group: call
`block_manager.append_slot` on every RUNNING sequence and merge returned
`(src, dst)` pairs into `blocks_to_copy`. -/
def appendSlotGroup {σ : Type} (ops : BlockManagerOps σ) (bm : σ)
    (copyMap : List (Nat × List Nat)) (g : SeqGroup) : σ × List (Nat × List Nat) :=
  (g.getSeqs .RUNNING).foldl
    (fun acc sq =>
      match ops.appendSlot acc.1 sq with
      | (bm', none) => (bm', acc.2)
      | (bm', some (src, dst)) => (bm', addCopy acc.2 src dst))
    (bm, copyMap)

/-- `Scheduler._preempt_by_recompute`: assert a single RUNNING sequence,
mark it WAITING, free its blocks, and push the group to the *front* of
the waiting queue. -/
def preemptByRecompute {σ : Type} (ops : BlockManagerOps σ) (g : SeqGroup)
    (waiting : List SeqGroup) (bm : σ) : Option (SeqGroup × List SeqGroup × σ) :=
  let seqs := g.getSeqs .RUNNING
  if seqs.length ≠ 1 then none
  else
    let bm' := seqs.foldl (fun b sq => ops.free b { sq with status := .WAITING }) bm
    let g' := g.markStatus .RUNNING .WAITING
    some (g', g' :: waiting, bm')

/-- `Scheduler._preempt_by_swap` (via `_swap_out`): fail fatally when
`can_swap_out` is false; otherwise merge the swap-out mapping into
`blocks_to_swap_out`, mark RUNNING sequences SWAPPED, and append the
group to the swapped queue. -/
def preemptBySwap {σ : Type} (ops : BlockManagerOps σ) (g : SeqGroup)
    (swapped : List SeqGroup) (bm : σ) (swapOutMap : List (Nat × Nat)) :
    Option (SeqGroup × List SeqGroup × σ × List (Nat × Nat)) :=
  if ops.canSwapOut bm g then
    let (bm', mapping) := ops.swapOut bm g
    let g' := g.markStatus .RUNNING .SWAPPED
    some (g', swapped ++ [g'], bm', dictUpdate swapOutMap mapping)
  else none

/-- `Scheduler._preempt`: choose RECOMPUTE when the group's maximum
number of running sequences is 1 and SWAP otherwise (unless a mode is
forced), then perform the preemption.  Returns the updated waiting queue,
swapped queue, manager state, `blocks_to_swap_out`, and the preempted
group (as mutated). -/
def preempt {σ : Type} (ops : BlockManagerOps σ) (g : SeqGroup)
    (waiting swapped : List SeqGroup) (bm : σ) (swapOutMap : List (Nat × Nat))
    (mode : Option PreemptionMode) :
    Option (List SeqGroup × List SeqGroup × σ × List (Nat × Nat) × SeqGroup) :=
  let m := match mode with
    | some m => m
    | none => if g.maxNumRunningSeqs = 1 then PreemptionMode.RECOMPUTE else PreemptionMode.SWAP
  match m with
  | .RECOMPUTE =>
    match preemptByRecompute ops g waiting bm with
    | none => none
    | some (g', waiting', bm') => some (waiting', swapped, bm', swapOutMap, g')
  | .SWAP =>
    match preemptBySwap ops g swapped bm swapOutMap with
    | none => none
    | some (g', swapped', bm', swapOutMap') => some (waiting, swapped', bm', swapOutMap', g')

/-- The running-queue LoRA-id set (`curr_loras`) computed at the top of
both the prompt loop and the swap-in phase. -/
def initCurrLoras (cfg : SchedConfig) (running : List SeqGroup) : List Nat :=
  if cfg.loraEnabled then (running.map (fun g => g.loraIntId)).dedup else []

/-- Accumulator of the Mode-A admission loop over the waiting queue. -/
structure PrefillAcc (σ : Type) where
  ignored : List SeqGroup
  scheduled : List SeqGroup
  running : List SeqGroup
  numCurrSeqs : Nat
  currLoras : List Nat
  seqLens : List Nat
  leftover : List SeqGroup
  bm : σ

/-- `waiting_seqs[0].get_len()` — the prompt length of the group's
unique WAITING sequence. -/
def promptTokens (g : SeqGroup) : Nat := ((g.getSeqs .WAITING).headD default).len

/-- The prompt-admission loop of `_schedule` (the `while self.waiting:`
loop): examine the waiting queue from the front; assert exactly one
WAITING sequence; ignore over-long prompts and NEVER groups; stop on
LATER or on any exceeded cap; defer LoRA-capped groups to a leftover
deque; otherwise admit (allocate, mark RUNNING, append to running and
scheduled).  Returns the remaining waiting queue and the accumulator. -/
def prefillLoop {σ : Type} (cfg : SchedConfig) (ops : BlockManagerOps σ) :
    List SeqGroup → PrefillAcc σ → Option (List SeqGroup × PrefillAcc σ)
  | [], acc => some ([], acc)
  | g :: rest, acc =>
    if (g.getSeqs .WAITING).length ≠ 1 then none
    else if cfg.promptLimit < promptTokens g then
      prefillLoop cfg ops rest
        { acc with ignored := acc.ignored ++ [g.markStatus .WAITING .FINISHED_IGNORED] }
    else
      match ops.canAllocate acc.bm g with
      | .LATER => some (g :: rest, acc)
      | .NEVER =>
        prefillLoop cfg ops rest
          { acc with ignored := acc.ignored ++ [g.markStatus .WAITING .FINISHED_IGNORED] }
      | .OK =>
        if cfg.loraEnabled ∧ 0 < g.loraIntId ∧ g.loraIntId ∉ acc.currLoras ∧
            cfg.maxLoras ≤ acc.currLoras.length then
          prefillLoop cfg ops rest { acc with leftover := g :: acc.leftover }
        else if cfg.maxNumBatchedTokens <
            (acc.seqLens ++ [promptTokens g]).length * maxNat (acc.seqLens ++ [promptTokens g]) then
          some (g :: rest, acc)
        else if cfg.maxNumSeqs < acc.numCurrSeqs + g.maxNumRunningSeqs then
          some (g :: rest, acc)
        else if cfg.maxPaddings <
            (acc.seqLens ++ [promptTokens g]).length * maxNat (acc.seqLens ++ [promptTokens g]) -
              (acc.seqLens ++ [promptTokens g]).sum then
          some (g :: rest, acc)
        else
          prefillLoop cfg ops rest
            { ignored := acc.ignored
              scheduled := acc.scheduled ++ [g.markStatus .WAITING .RUNNING]
              running := acc.running ++ [g.markStatus .WAITING .RUNNING]
              numCurrSeqs := acc.numCurrSeqs + g.maxNumRunningSeqs
              currLoras := if 0 < g.loraIntId then
                  (if g.loraIntId ∈ acc.currLoras then acc.currLoras
                   else acc.currLoras ++ [g.loraIntId])
                else acc.currLoras
              seqLens := acc.seqLens ++ [promptTokens g]
              leftover := acc.leftover
              bm := ops.allocate acc.bm g }

/-- The inner `while not can_append_slot` loop of `_schedule`: preempt
victims popped from the *back* of the remaining running queue (given here
reversed, so victims come from the head) until the current group fits, or
preempt the current group itself when no victims remain.  Returns whether
the current group survived, the remaining reversed queue, and the updated
waiting/swapped/manager/swap-out/preempted state. -/
def preemptLoop {σ : Type} (cfg : SchedConfig) (ops : BlockManagerOps σ) (g : SeqGroup) :
    List SeqGroup → List SeqGroup → List SeqGroup → σ → List (Nat × Nat) → List SeqGroup →
    Option (Bool × List SeqGroup × List SeqGroup × List SeqGroup × σ ×
      List (Nat × Nat) × List SeqGroup)
  | [], waiting, swapped, bm, swapOutMap, preempted =>
    if ops.canAppendSlot bm g then
      some (true, [], waiting, swapped, bm, swapOutMap, preempted)
    else
      match preempt ops g waiting swapped bm swapOutMap none with
      | none => none
      | some (waiting', swapped', bm', swapOutMap', g') =>
        some (false, [], waiting', swapped', bm', swapOutMap', preempted ++ [g'])
  | victim :: revRest, waiting, swapped, bm, swapOutMap, preempted =>
    if ops.canAppendSlot bm g then
      some (true, victim :: revRest, waiting, swapped, bm, swapOutMap, preempted)
    else
      match preempt ops victim waiting swapped bm swapOutMap none with
      | none => none
      | some (waiting', swapped', bm', swapOutMap', v') =>
        preemptLoop cfg ops g revRest waiting' swapped' bm' swapOutMap'
          (preempted ++ [v'])

/-- The remaining reversed queue returned by `preemptLoop` is no longer
than its input. -/
theorem preemptLoop_length_le {σ : Type} (cfg : SchedConfig) (ops : BlockManagerOps σ)
    (g : SeqGroup) :
    ∀ revQueue waiting swapped bm swapOutMap preempted ok revQueue' w' s' bm' m' p',
      preemptLoop cfg ops g revQueue waiting swapped bm swapOutMap preempted =
        some (ok, revQueue', w', s', bm', m', p') →
      revQueue'.length ≤ revQueue.length := by
  intro revQueue
  induction revQueue with
  | nil =>
    intro waiting swapped bm swapOutMap preempted ok revQueue' w' s' bm' m' p' h
    unfold preemptLoop at h
    split at h
    · simp only [Option.some.injEq, Prod.mk.injEq] at h
      rw [← h.2.1]
    · split at h
      · exact Option.noConfusion h
      · simp only [Option.some.injEq, Prod.mk.injEq] at h
        rw [← h.2.1]
  | cons victim revRest ih =>
    intro waiting swapped bm swapOutMap preempted ok revQueue' w' s' bm' m' p' h
    unfold preemptLoop at h
    split at h
    · simp only [Option.some.injEq, Prod.mk.injEq] at h
      rw [← h.2.1]
    · split at h
      · exact Option.noConfusion h
      · have := ih _ _ _ _ _ _ _ _ _ _ _ _ h
        simp only [List.length_cons]
        omega

/-- The outer `while self.running:` loop of `_schedule` Mode B: pop the
highest-priority group, run the preemption loop, and on success append a
slot for each of its RUNNING sequences and keep it running.  The Python
loop terminates because every iteration removes at least one group from
the queue; `fuel` makes that bound explicit (the caller passes the queue
length, which is always sufficient, so the `none` fuel-exhaustion arm is
unreachable). -/
def runningLoop {σ : Type} (cfg : SchedConfig) (ops : BlockManagerOps σ) :
    (fuel : Nat) → (queue : List SeqGroup) →
    List SeqGroup → List SeqGroup → List SeqGroup → List SeqGroup → σ →
    List (Nat × Nat) → List (Nat × List Nat) →
    Option (List SeqGroup × List SeqGroup × List SeqGroup × List SeqGroup × σ ×
      List (Nat × Nat) × List (Nat × List Nat))
  | _, [], newRunning, preempted, waiting, swapped, bm, swapOutMap, copyMap =>
    some (newRunning, preempted, waiting, swapped, bm, swapOutMap, copyMap)
  | 0, _ :: _, _, _, _, _, _, _, _ => none
  | fuel + 1, g :: rest, newRunning, preempted, waiting, swapped, bm, swapOutMap, copyMap =>
    match preemptLoop cfg ops g rest.reverse waiting swapped bm swapOutMap preempted with
    | none => none
    | some (ok, revRest', waiting', swapped', bm', swapOutMap', preempted') =>
      if ok then
        let (bm₂, copyMap₂) := appendSlotGroup ops bm' copyMap g
        runningLoop cfg ops fuel revRest'.reverse (newRunning ++ [g]) preempted'
          waiting' swapped' bm₂ swapOutMap' copyMap₂
      else
        runningLoop cfg ops fuel revRest'.reverse newRunning preempted'
          waiting' swapped' bm' swapOutMap' copyMap

/-- Accumulator of the swap-in loop over the swapped queue. -/
structure SwapInAcc (σ : Type) where
  running : List SeqGroup
  numCurrSeqs : Nat
  currLoras : List Nat
  swapInMap : List (Nat × Nat)
  copyMap : List (Nat × List Nat)
  leftover : List SeqGroup
  bm : σ

/-- The `while self.swapped:` swap-in loop of `_schedule` Mode B: defer
LoRA-capped groups, stop when `can_swap_in` fails or the sequence cap
would be exceeded; otherwise swap the group in (merging the mapping into
`blocks_to_swap_in`, marking SWAPPED sequences RUNNING), append slots,
and append it to the running queue. -/
def swapInLoop {σ : Type} (cfg : SchedConfig) (ops : BlockManagerOps σ) :
    List SeqGroup → SwapInAcc σ → (List SeqGroup × SwapInAcc σ)
  | [], acc => ([], acc)
  | g :: rest, acc =>
    if cfg.loraEnabled ∧ 0 < g.loraIntId ∧ g.loraIntId ∉ acc.currLoras ∧
        cfg.maxLoras ≤ acc.currLoras.length then
      swapInLoop cfg ops rest { acc with leftover := g :: acc.leftover }
    else if ¬ ops.canSwapIn acc.bm g then (g :: rest, acc)
    else if cfg.maxNumSeqs < acc.numCurrSeqs + g.maxNumRunningSeqs then (g :: rest, acc)
    else
      let currLoras' := if 0 < g.loraIntId then
          (if g.loraIntId ∈ acc.currLoras then acc.currLoras
           else acc.currLoras ++ [g.loraIntId])
        else acc.currLoras
      let (bm₁, mapping) := ops.swapIn acc.bm g
      let g' := g.markStatus .SWAPPED .RUNNING
      let (bm₂, copyMap₂) := appendSlotGroup ops bm₁ acc.copyMap g'
      swapInLoop cfg ops rest
        { running := acc.running ++ [g']
          numCurrSeqs := acc.numCurrSeqs + g.maxNumRunningSeqs
          currLoras := currLoras'
          swapInMap := dictUpdate acc.swapInMap mapping
          copyMap := copyMap₂
          leftover := acc.leftover
          bm := bm₂ }

/-- Mode B of `_schedule` (decode with preemption and swap-in): sort the
running queue by FCFS priority, reserve an append slot per group
(preempting victims as needed), sort the swapped queue, and — only when
no preemption occurred — swap groups back in; the batched-token count is
the number of RUNNING sequences across the running queue. -/
def modeB {σ : Type} (cfg : SchedConfig) (ops : BlockManagerOps σ)
    (st : SchedulerState σ) : Option (SchedulerOutputs × SchedulerState σ) :=
  match runningLoop cfg ops (sortFcfs st.running).length (sortFcfs st.running) [] []
      st.waiting st.swapped st.bm [] [] with
  | none => none
  | some (newRunning, preempted, waiting₁, swapped₁, bm₁, swapOutMap, copyMap₁) =>
    let swappedSorted := sortFcfs swapped₁
    if preempted.isEmpty then
      let numCurrSeqs := (newRunning.map (fun g => g.maxNumRunningSeqs)).sum
      let currLoras := initCurrLoras cfg newRunning
      let res := swapInLoop cfg ops swappedSorted
        ⟨newRunning, numCurrSeqs, currLoras, [], copyMap₁, [], bm₁⟩
      let numBatchedTokens := (res.2.running.map (fun g => (g.getSeqs .RUNNING).length)).sum
      some (mkSchedulerOutputs res.2.running false numBatchedTokens res.2.swapInMap
          swapOutMap res.2.copyMap [],
        ⟨waiting₁, res.2.running, res.2.leftover.reverse ++ res.1, res.2.bm⟩)
    else
      let numBatchedTokens := (newRunning.map (fun g => (g.getSeqs .RUNNING).length)).sum
      some (mkSchedulerOutputs newRunning false numBatchedTokens [] swapOutMap copyMap₁ [],
        ⟨waiting₁, newRunning, swappedSorted, bm₁⟩)

/-- `Scheduler._schedule`: when the swapped queue is empty, run the
Mode-A admission loop and return a prompt batch if it admitted or ignored
anything; otherwise (or when Mode A produced nothing) run Mode B. -/
def scheduleStep {σ : Type} (cfg : SchedConfig) (ops : BlockManagerOps σ)
    (st : SchedulerState σ) : Option (SchedulerOutputs × SchedulerState σ) :=
  if st.swapped.isEmpty then
    match prefillLoop cfg ops st.waiting
        ⟨[], [], st.running, (st.running.map (fun g => g.maxNumRunningSeqs)).sum,
          initCurrLoras cfg st.running, [], [], st.bm⟩ with
    | none => none
    | some (remaining, acc) =>
      if acc.scheduled.isEmpty ∧ acc.ignored.isEmpty then
        modeB cfg ops ⟨acc.leftover.reverse ++ remaining, acc.running, st.swapped, acc.bm⟩
      else
        some (mkSchedulerOutputs acc.scheduled true
            (acc.seqLens.length * maxNat acc.seqLens) [] [] [] acc.ignored,
          ⟨acc.leftover.reverse ++ remaining, acc.running, st.swapped, acc.bm⟩)
  else
    modeB cfg ops st

/-- Preemption only ever extends the `preempted` list. -/
theorem preemptLoop_preempted_grows {σ : Type} (cfg : SchedConfig) (ops : BlockManagerOps σ)
    (g : SeqGroup) :
    ∀ revQueue waiting swapped bm swapOutMap preempted ok rq' w' s' bm' m' p',
      preemptLoop cfg ops g revQueue waiting swapped bm swapOutMap preempted =
        some (ok, rq', w', s', bm', m', p') →
      preempted.length ≤ p'.length ∧ (p'.length = preempted.length → m' = swapOutMap) := by
  intro revQueue
  induction revQueue with
  | nil =>
    intro waiting swapped bm swapOutMap preempted ok rq' w' s' bm' m' p' h
    unfold preemptLoop at h
    split at h
    · simp only [Option.some.injEq, Prod.mk.injEq] at h
      constructor
      · rw [← h.2.2.2.2.2.2]
      · intro _; rw [← h.2.2.2.2.2.1]
    · split at h
      · exact Option.noConfusion h
      · simp only [Option.some.injEq, Prod.mk.injEq] at h
        constructor
        · rw [← h.2.2.2.2.2.2]
          simp
        · intro hlen
          rw [← h.2.2.2.2.2.2] at hlen
          simp at hlen
  | cons victim revRest ih =>
    intro waiting swapped bm swapOutMap preempted ok rq' w' s' bm' m' p' h
    unfold preemptLoop at h
    split at h
    · simp only [Option.some.injEq, Prod.mk.injEq] at h
      constructor
      · rw [← h.2.2.2.2.2.2]
      · intro _; rw [← h.2.2.2.2.2.1]
    · split at h
      · exact Option.noConfusion h
      · have := ih _ _ _ _ _ _ _ _ _ _ _ _ h
        constructor
        · have hgrow := this.1
          simp only [List.length_append, List.length_cons] at hgrow
          omega
        · intro hlen
          have hgrow := this.1
          simp only [List.length_append, List.length_cons] at hgrow
          omega

/-- Across the whole Mode-B running loop: the `preempted` list only
grows, and if it did not grow then `blocks_to_swap_out` is untouched. -/
theorem runningLoop_preempted_grows {σ : Type} (cfg : SchedConfig) (ops : BlockManagerOps σ) :
    ∀ (fuel : Nat) (queue : List SeqGroup),
    ∀ newRunning preempted waiting swapped bm swapOutMap copyMap nr' p' w' s' bm' m' cp',
      runningLoop cfg ops fuel queue newRunning preempted waiting swapped bm swapOutMap copyMap =
        some (nr', p', w', s', bm', m', cp') →
      preempted.length ≤ p'.length ∧ (p'.length = preempted.length → m' = swapOutMap) := by
  intro fuel
  induction fuel with
  | zero =>
    intro queue newRunning preempted waiting swapped bm swapOutMap copyMap nr' p' w' s' bm' m' cp' h
    match queue with
    | [] =>
      unfold runningLoop at h
      simp only [Option.some.injEq, Prod.mk.injEq] at h
      constructor
      · rw [← h.2.1]
      · intro _; rw [← h.2.2.2.2.2.1]
    | g :: rest =>
      exact Option.noConfusion h
  | succ n ih =>
    intro queue newRunning preempted waiting swapped bm swapOutMap copyMap nr' p' w' s' bm' m' cp' h
    match queue with
    | [] =>
      unfold runningLoop at h
      simp only [Option.some.injEq, Prod.mk.injEq] at h
      constructor
      · rw [← h.2.1]
      · intro _; rw [← h.2.2.2.2.2.1]
    | g :: rest =>
      unfold runningLoop at h
      split at h
      · exact Option.noConfusion h
      · next ok revRest' waiting₁ swapped₁ bm₁ swapOutMap₁ preempted₁ hpl =>
        have hplfacts := preemptLoop_preempted_grows cfg ops g _ _ _ _ _ _ _ _ _ _ _ _ _ hpl
        split at h
        · have hrec := ih _ _ _ _ _ _ _ _ _ _ _ _ _ _ _ h
          constructor
          · omega
          · intro hl
            have h1 : m' = swapOutMap₁ := hrec.2 (by omega)
            have h2 : swapOutMap₁ = swapOutMap := hplfacts.2 (by omega)
            rw [h1, h2]
        · have hrec := ih _ _ _ _ _ _ _ _ _ _ _ _ _ _ _ h
          constructor
          · omega
          · intro hl
            have h1 : m' = swapOutMap₁ := hrec.2 (by omega)
            have h2 : swapOutMap₁ = swapOutMap := hplfacts.2 (by omega)
            rw [h1, h2]

/-- In Mode B, `blocks_to_swap_out` is non-empty only when a preemption
occurred (it starts empty and only `_preempt` fills it), and the swap-in
loop runs only when no preemption occurred — so the two maps in the
returned `SchedulerOutputs` cannot both be non-empty. -/
theorem modeB_swap_consistent {σ : Type} (cfg : SchedConfig) (ops : BlockManagerOps σ)
    (st : SchedulerState σ) (out : SchedulerOutputs) (st' : SchedulerState σ)
    (h : modeB cfg ops st = some (out, st')) :
    out.blocksToSwapIn = [] ∨ out.blocksToSwapOut = [] := by
  unfold modeB at h
  split at h
  · exact Option.noConfusion h
  · next newRunning preempted waiting₁ swapped₁ bm₁ swapOutMap copyMap₁ hrl =>
    by_cases hp : preempted.isEmpty
    · rw [if_pos hp] at h
      simp only [Option.some.injEq, Prod.mk.injEq] at h
      right
      have hlen : preempted.length = 0 := by
        rw [List.isEmpty_iff] at hp
        simp [hp]
      have hso : swapOutMap = [] :=
        (runningLoop_preempted_grows cfg ops (sortFcfs st.running).length _
          _ _ _ _ _ _ _ _ _ _ _ _ _ _ hrl).2 (by simpa using hlen)
      rw [← h.1, hso]
      simp [mkSchedulerOutputs]
    · rw [if_neg hp] at h
      simp only [Option.some.injEq, Prod.mk.injEq] at h
      left
      rw [← h.1]
      simp [mkSchedulerOutputs]

end Scheduler

/-- C1: every `SchedulerOutputs` returned by `_schedule` has
`blocks_to_swap_in` and `blocks_to_swap_out` not both non-empty: swap-outs
come only from preemptions, swap-in of swapped groups is attempted only
when no preemption occurred in the same step, and the prompt branch never
touches either map — so the constructor's assertion can never fire. -/
theorem c1_schedule_swap_in_out_exclusive {σ : Type} (cfg : SchedConfig)
    (ops : BlockManagerOps σ) (st : SchedulerState σ) (out : SchedulerOutputs)
    (st' : SchedulerState σ)
    (h : Scheduler.scheduleStep cfg ops st = some (out, st')) :
    out.blocksToSwapIn = [] ∨ out.blocksToSwapOut = [] := by
  unfold Scheduler.scheduleStep at h
  split at h
  · split at h
    · exact Option.noConfusion h
    · next remaining acc hpf =>
      split at h
      · exact Scheduler.modeB_swap_consistent _ _ _ _ _ h
      · simp only [Option.some.injEq, Prod.mk.injEq] at h
        left
        rw [← h.1]
        simp [mkSchedulerOutputs]
  · exact Scheduler.modeB_swap_consistent _ _ _ _ _ h

/-- A degenerate block manager over the unit state, used to run the
scheduler model on concrete inputs: every query answers with the given
constants, allocation and freeing do nothing, and swap mappings are
empty. -/
def constOps (a : AllocStatus) (canApp canSwap : Bool) : BlockManagerOps Unit :=
  { canAllocate := fun _ _ => a
    allocate := fun _ _ => ()
    canAppendSlot := fun _ _ => canApp
    appendSlot := fun _ _ => ((), none)
    canSwapIn := fun _ _ => canSwap
    swapIn := fun _ _ => ((), [])
    canSwapOut := fun _ _ => canSwap
    swapOut := fun _ _ => ((), [])
    free := fun s _ => s }

/-- Witness for `c1_schedule_swap_in_out_exclusive`: a concrete schedule
step on empty queues. -/
theorem c1_schedule_swap_in_out_exclusive_witness :
    (⟨[], false, 0, [], [], [], []⟩ : SchedulerOutputs).blocksToSwapIn = [] ∨
    (⟨[], false, 0, [], [], [], []⟩ : SchedulerOutputs).blocksToSwapOut = [] :=
  c1_schedule_swap_in_out_exclusive ⟨8, 4, 8, 8, false, 0⟩ (constOps .OK true true)
    ⟨[], [], [], ()⟩ ⟨[], false, 0, [], [], [], []⟩ ⟨[], [], [], ()⟩ rfl

/-- C5: without an explicit mode override, `_preempt` preempts a group
whose `get_max_num_running_seqs()` is 1 by RECOMPUTE — its RUNNING
sequence becomes WAITING, its blocks are freed, and the group is pushed
to the *front* of the waiting queue — and any other group by SWAP — the
`swap_out` mapping is merged into `blocks_to_swap_out`, the group is
appended to the swapped queue, and its RUNNING sequences become SWAPPED
(failing fatally if `can_swap_out` is false). -/
theorem c5_preempt_default_modes {σ : Type} (ops : BlockManagerOps σ) (g : SeqGroup)
    (waiting swapped : List SeqGroup) (bm : σ) (swapOutMap : List (Nat × Nat)) :
    (g.maxNumRunningSeqs = 1 → (g.getSeqs .RUNNING).length = 1 →
      Scheduler.preempt ops g waiting swapped bm swapOutMap none =
        some (g.markStatus .RUNNING .WAITING :: waiting, swapped,
          (g.getSeqs .RUNNING).foldl (fun b sq => ops.free b { sq with status := .WAITING }) bm,
          swapOutMap, g.markStatus .RUNNING .WAITING)) ∧
    (g.maxNumRunningSeqs ≠ 1 → ops.canSwapOut bm g = true →
      Scheduler.preempt ops g waiting swapped bm swapOutMap none =
        some (waiting, swapped ++ [g.markStatus .RUNNING .SWAPPED],
          (ops.swapOut bm g).1, dictUpdate swapOutMap (ops.swapOut bm g).2,
          g.markStatus .RUNNING .SWAPPED)) := by
  constructor
  · intro h1 h2
    unfold Scheduler.preempt
    rw [if_pos h1]
    show (match Scheduler.preemptByRecompute ops g waiting bm with
      | none => none
      | some (g', waiting', bm') => some (waiting', swapped, bm', swapOutMap, g')) = _
    unfold Scheduler.preemptByRecompute
    rw [if_neg (by simp [h2])]
  · intro h1 h2
    unfold Scheduler.preempt
    rw [if_neg h1]
    show (match Scheduler.preemptBySwap ops g swapped bm swapOutMap with
      | none => none
      | some (g', swapped', bm', swapOutMap') =>
        some (waiting, swapped', bm', swapOutMap', g')) = _
    unfold Scheduler.preemptBySwap
    rw [if_pos h2]

/-- Witness for `c5_preempt_default_modes`: a single-sequence group (hits
the RECOMPUTE branch) over the unit block manager. -/
theorem c5_preempt_default_modes_witness :
    ((⟨7, [⟨0, 5, .RUNNING⟩], 1, 0, 0⟩ : SeqGroup).maxNumRunningSeqs = 1 →
      ((⟨7, [⟨0, 5, .RUNNING⟩], 1, 0, 0⟩ : SeqGroup).getSeqs .RUNNING).length = 1 →
      Scheduler.preempt (constOps .OK true true) ⟨7, [⟨0, 5, .RUNNING⟩], 1, 0, 0⟩ [] [] () [] none =
        some ((⟨7, [⟨0, 5, .RUNNING⟩], 1, 0, 0⟩ : SeqGroup).markStatus .RUNNING .WAITING :: [],
          [],
          (((⟨7, [⟨0, 5, .RUNNING⟩], 1, 0, 0⟩ : SeqGroup).getSeqs .RUNNING).foldl
            (fun b sq => (constOps .OK true true).free b { sq with status := .WAITING }) ()),
          [],
          (⟨7, [⟨0, 5, .RUNNING⟩], 1, 0, 0⟩ : SeqGroup).markStatus .RUNNING .WAITING)) ∧
    ((⟨7, [⟨0, 5, .RUNNING⟩], 1, 0, 0⟩ : SeqGroup).maxNumRunningSeqs ≠ 1 →
      (constOps .OK true true).canSwapOut () ⟨7, [⟨0, 5, .RUNNING⟩], 1, 0, 0⟩ = true →
      Scheduler.preempt (constOps .OK true true) ⟨7, [⟨0, 5, .RUNNING⟩], 1, 0, 0⟩ [] [] () [] none =
        some ([],
          [] ++ [(⟨7, [⟨0, 5, .RUNNING⟩], 1, 0, 0⟩ : SeqGroup).markStatus .RUNNING .SWAPPED],
          ((constOps .OK true true).swapOut () ⟨7, [⟨0, 5, .RUNNING⟩], 1, 0, 0⟩).1,
          dictUpdate [] ((constOps .OK true true).swapOut () ⟨7, [⟨0, 5, .RUNNING⟩], 1, 0, 0⟩).2,
          (⟨7, [⟨0, 5, .RUNNING⟩], 1, 0, 0⟩ : SeqGroup).markStatus .RUNNING .SWAPPED)) :=
  c5_preempt_default_modes (constOps .OK true true) ⟨7, [⟨0, 5, .RUNNING⟩], 1, 0, 0⟩ [] [] () []

/-- The prompt length of a single-sequence group (the unique sequence's
`get_len()`). -/
def groupFirstLen (g : SeqGroup) : Nat := (g.seqs.headD default).len

/-- Mode B always returns a decode batch (`prompt_run = False`). -/
theorem modeB_prompt_false {σ : Type} (cfg : SchedConfig) (ops : BlockManagerOps σ)
    (st : SchedulerState σ) (out : SchedulerOutputs) (st' : SchedulerState σ)
    (h : Scheduler.modeB cfg ops st = some (out, st')) : out.promptRun = false := by
  unfold Scheduler.modeB at h
  split at h
  · exact Option.noConfusion h
  · split at h
    · simp only [Option.some.injEq, Prod.mk.injEq] at h
      rw [← h.1]
      simp [mkSchedulerOutputs]
    · simp only [Option.some.injEq, Prod.mk.injEq] at h
      rw [← h.1]
      simp [mkSchedulerOutputs]

/-- The Mode-A admission loop invariant: `seq_lens` is exactly the list
of admitted prompt lengths (for single-sequence groups), and whenever
`seq_lens` is non-empty the batched-token product and the padding slack
are within their caps — every candidate that would break either bound
stops the loop before being appended. -/
theorem prefillLoop_invariant {σ : Type} (cfg : SchedConfig) (ops : BlockManagerOps σ) :
    ∀ (queue : List SeqGroup) (acc : Scheduler.PrefillAcc σ) remaining acc',
      (∀ g ∈ queue, ∃ sq : Seq, g.seqs = [sq]) →
      Scheduler.prefillLoop cfg ops queue acc = some (remaining, acc') →
      acc.seqLens = acc.scheduled.map groupFirstLen →
      (acc.seqLens ≠ [] →
        acc.seqLens.length * maxNat acc.seqLens ≤ cfg.maxNumBatchedTokens ∧
        acc.seqLens.length * maxNat acc.seqLens - acc.seqLens.sum ≤ cfg.maxPaddings) →
      (acc'.seqLens = acc'.scheduled.map groupFirstLen ∧
       (acc'.seqLens ≠ [] →
        acc'.seqLens.length * maxNat acc'.seqLens ≤ cfg.maxNumBatchedTokens ∧
        acc'.seqLens.length * maxNat acc'.seqLens - acc'.seqLens.sum ≤ cfg.maxPaddings)) := by
  intro queue
  induction queue with
  | nil =>
    intro acc remaining acc' _ h hcorr hbound
    unfold Scheduler.prefillLoop at h
    simp only [Option.some.injEq, Prod.mk.injEq] at h
    rw [← h.2]
    exact ⟨hcorr, hbound⟩
  | cons g rest ih =>
    intro acc remaining acc' hone h hcorr hbound
    have honeg := hone g (by simp)
    have honer : ∀ g2 ∈ rest, ∃ sq : Seq, g2.seqs = [sq] :=
      fun g2 hg2 => hone g2 (List.mem_cons_of_mem _ hg2)
    unfold Scheduler.prefillLoop at h
    by_cases h1 : (g.getSeqs .WAITING).length ≠ 1
    · rw [if_pos h1] at h
      exact Option.noConfusion h
    · rw [if_neg h1] at h
      by_cases h2 : cfg.promptLimit < Scheduler.promptTokens g
      · rw [if_pos h2] at h
        exact ih _ _ _ honer h hcorr hbound
      · rw [if_neg h2] at h
        split at h
        · simp only [Option.some.injEq, Prod.mk.injEq] at h
          rw [← h.2]
          exact ⟨hcorr, hbound⟩
        · exact ih _ _ _ honer h hcorr hbound
        · by_cases h3 : cfg.loraEnabled ∧ 0 < g.loraIntId ∧ g.loraIntId ∉ acc.currLoras ∧
              cfg.maxLoras ≤ acc.currLoras.length
          · rw [if_pos h3] at h
            exact ih _ _ _ honer h hcorr hbound
          · rw [if_neg h3] at h
            by_cases h4 : cfg.maxNumBatchedTokens <
                (acc.seqLens ++ [Scheduler.promptTokens g]).length *
                  maxNat (acc.seqLens ++ [Scheduler.promptTokens g])
            · rw [if_pos h4] at h
              simp only [Option.some.injEq, Prod.mk.injEq] at h
              rw [← h.2]
              exact ⟨hcorr, hbound⟩
            · rw [if_neg h4] at h
              by_cases h5 : cfg.maxNumSeqs < acc.numCurrSeqs + g.maxNumRunningSeqs
              · rw [if_pos h5] at h
                simp only [Option.some.injEq, Prod.mk.injEq] at h
                rw [← h.2]
                exact ⟨hcorr, hbound⟩
              · rw [if_neg h5] at h
                by_cases h6 : cfg.maxPaddings <
                    (acc.seqLens ++ [Scheduler.promptTokens g]).length *
                      maxNat (acc.seqLens ++ [Scheduler.promptTokens g]) -
                      (acc.seqLens ++ [Scheduler.promptTokens g]).sum
                · rw [if_pos h6] at h
                  simp only [Option.some.injEq, Prod.mk.injEq] at h
                  rw [← h.2]
                  exact ⟨hcorr, hbound⟩
                · rw [if_neg h6] at h
                  obtain ⟨sq, hsq⟩ := honeg
                  have hlen1 : (g.getSeqs .WAITING).length = 1 := not_ne_iff.mp h1
                  have hstat : sq.status = .WAITING := by
                    by_contra hst
                    have hnil : g.getSeqs .WAITING = [] := by
                      simp [SeqGroup.getSeqs, hsq, List.filter_cons, beq_iff_eq, hst]
                    rw [hnil] at hlen1
                    simp at hlen1
                  have hnum : Scheduler.promptTokens g = sq.len := by
                    simp [Scheduler.promptTokens, SeqGroup.getSeqs, hsq, List.filter_cons, hstat]
                  have hfl : groupFirstLen (g.markStatus .WAITING .RUNNING) = sq.len := by
                    simp [groupFirstLen, SeqGroup.markStatus, hsq, hstat]
                  apply ih _ _ _ honer h
                  · show acc.seqLens ++ [Scheduler.promptTokens g] =
                      List.map groupFirstLen (acc.scheduled ++ [g.markStatus .WAITING .RUNNING])
                    rw [List.map_append, List.map_cons, List.map_nil, hcorr, hfl, hnum]
                  · intro _
                    exact ⟨Nat.le_of_not_lt h4, Nat.le_of_not_lt h6⟩

/-- C6: whenever `_schedule` admits prompts (returns `prompt_run = True`
with a non-empty scheduled list), the returned `num_batched_tokens`
equals (number of admitted prompts) × (longest admitted prompt length);
this product never exceeds `max_num_batched_tokens`, and the padding
slack (product minus the sum of admitted prompt lengths) never exceeds
`max_paddings` — a candidate that would violate either bound stops the
admission loop before being admitted. -/
theorem c6_prompt_batch_bounds {σ : Type} (cfg : SchedConfig) (ops : BlockManagerOps σ)
    (st : SchedulerState σ) (out : SchedulerOutputs) (st' : SchedulerState σ)
    (hone : ∀ g ∈ st.waiting, ∃ sq : Seq, g.seqs = [sq])
    (h : Scheduler.scheduleStep cfg ops st = some (out, st'))
    (hp : out.promptRun = true) (hs : out.scheduledSeqGroups ≠ []) :
    out.numBatchedTokens =
      out.scheduledSeqGroups.length * maxNat (out.scheduledSeqGroups.map groupFirstLen) ∧
    out.numBatchedTokens ≤ cfg.maxNumBatchedTokens ∧
    out.numBatchedTokens - (out.scheduledSeqGroups.map groupFirstLen).sum ≤
      cfg.maxPaddings := by
  unfold Scheduler.scheduleStep at h
  split at h
  · split at h
    · exact Option.noConfusion h
    · next remaining acc hpf =>
      split at h
      · rw [modeB_prompt_false _ _ _ _ _ h] at hp
        exact absurd hp (by simp)
      · simp only [Option.some.injEq, Prod.mk.injEq] at h
        have hout : out = mkSchedulerOutputs acc.scheduled true
            (acc.seqLens.length * maxNat acc.seqLens) [] [] [] acc.ignored := h.1.symm
        have hinv := prefillLoop_invariant cfg ops st.waiting _ remaining acc hone hpf rfl
          (fun hc => absurd rfl hc)
        have hperm : List.Perm out.scheduledSeqGroups acc.scheduled := by
          rw [hout]
          simp only [mkSchedulerOutputs]
          split
          · exact List.perm_insertionSort _ _
          · exact List.Perm.refl _
        have hnb : out.numBatchedTokens = acc.seqLens.length * maxNat acc.seqLens := by
          rw [hout]
          simp [mkSchedulerOutputs]
        have hlen : out.scheduledSeqGroups.length = acc.scheduled.length := hperm.length_eq
        have hmap : List.Perm (out.scheduledSeqGroups.map groupFirstLen)
            (acc.scheduled.map groupFirstLen) := hperm.map _
        have hmax : maxNat (out.scheduledSeqGroups.map groupFirstLen) =
            maxNat (acc.scheduled.map groupFirstLen) := by
          show (out.scheduledSeqGroups.map groupFirstLen).foldr max 0 =
            (acc.scheduled.map groupFirstLen).foldr max 0
          exact List.Perm.foldr_eq hmap _
        have hsum : (out.scheduledSeqGroups.map groupFirstLen).sum =
            (acc.scheduled.map groupFirstLen).sum := hmap.sum_eq
        have hsched_ne : acc.scheduled ≠ [] := by
          intro hnil
          rw [hnil] at hperm
          exact hs (List.Perm.eq_nil hperm)
        have hlens_ne : acc.seqLens ≠ [] := by
          rw [hinv.1]
          simpa using hsched_ne
        have hbounds := hinv.2 hlens_ne
        refine ⟨?_, ?_, ?_⟩
        · rw [hnb, hinv.1, hlen, hmax, List.length_map]
        · rw [hnb]
          exact hbounds.1
        · rw [hnb, hsum, ← hinv.1]
          exact hbounds.2
  · rw [modeB_prompt_false _ _ _ _ _ h] at hp
    exact absurd hp (by simp)

/-- Witness for `c6_prompt_batch_bounds`: one 5-token single-sequence
prompt admitted under ample caps. -/
theorem c6_prompt_batch_bounds_witness :
    (⟨[⟨1, [⟨0, 5, .RUNNING⟩], 1, 0, 0⟩], true, 5, [], [], [],
        []⟩ : SchedulerOutputs).numBatchedTokens =
      (⟨[⟨1, [⟨0, 5, .RUNNING⟩], 1, 0, 0⟩], true, 5, [], [], [],
        []⟩ : SchedulerOutputs).scheduledSeqGroups.length *
        maxNat ((⟨[⟨1, [⟨0, 5, .RUNNING⟩], 1, 0, 0⟩], true, 5, [], [], [],
          []⟩ : SchedulerOutputs).scheduledSeqGroups.map groupFirstLen) ∧
    (⟨[⟨1, [⟨0, 5, .RUNNING⟩], 1, 0, 0⟩], true, 5, [], [], [],
      []⟩ : SchedulerOutputs).numBatchedTokens ≤
      (⟨100, 4, 100, 10, false, 0⟩ : SchedConfig).maxNumBatchedTokens ∧
    (⟨[⟨1, [⟨0, 5, .RUNNING⟩], 1, 0, 0⟩], true, 5, [], [], [],
      []⟩ : SchedulerOutputs).numBatchedTokens -
      ((⟨[⟨1, [⟨0, 5, .RUNNING⟩], 1, 0, 0⟩], true, 5, [], [], [],
        []⟩ : SchedulerOutputs).scheduledSeqGroups.map groupFirstLen).sum ≤
      (⟨100, 4, 100, 10, false, 0⟩ : SchedConfig).maxPaddings :=
  c6_prompt_batch_bounds ⟨100, 4, 100, 10, false, 0⟩ (constOps .OK true true)
    ⟨[⟨1, [⟨0, 5, .WAITING⟩], 1, 0, 0⟩], [], [], ()⟩
    ⟨[⟨1, [⟨0, 5, .RUNNING⟩], 1, 0, 0⟩], true, 5, [], [], [], []⟩
    ⟨[], [⟨1, [⟨0, 5, .RUNNING⟩], 1, 0, 0⟩], [], ()⟩
    (by
      intro g hg
      have hgeq : g = ⟨1, [⟨0, 5, .WAITING⟩], 1, 0, 0⟩ := List.mem_singleton.mp hg
      exact ⟨⟨0, 5, .WAITING⟩, by rw [hgeq]⟩)
    rfl rfl (by decide)

/-- Totality and monotonicity of the Mode-A loop: when every queued
group passes the single-WAITING-sequence assertion, the loop returns;
`ignored` only grows, and the remaining/leftover groups all come from the
input queue (or the previous leftover). -/
theorem prefillLoop_total {σ : Type} (cfg : SchedConfig) (ops : BlockManagerOps σ) :
    ∀ (queue : List SeqGroup) (acc : Scheduler.PrefillAcc σ),
      (∀ g ∈ queue, (g.getSeqs .WAITING).length = 1) →
      ∃ remaining acc', Scheduler.prefillLoop cfg ops queue acc = some (remaining, acc') ∧
        (∃ extra, acc'.ignored = acc.ignored ++ extra) ∧
        (∀ g2 ∈ remaining, g2 ∈ queue) ∧
        (∀ g2 ∈ acc'.leftover, g2 ∈ acc.leftover ∨ g2 ∈ queue) := by
  intro queue
  induction queue with
  | nil =>
    intro acc _
    exact ⟨[], acc, rfl, ⟨[], by simp⟩, by simp, fun g2 h => Or.inl h⟩
  | cons g rest ih =>
    intro acc hone
    have honeg := hone g (by simp)
    have honer : ∀ g2 ∈ rest, (g2.getSeqs .WAITING).length = 1 :=
      fun g2 hg2 => hone g2 (List.mem_cons_of_mem _ hg2)
    unfold Scheduler.prefillLoop
    rw [if_neg (not_ne_iff.mpr honeg)]
    by_cases h2 : cfg.promptLimit < Scheduler.promptTokens g
    · rw [if_pos h2]
      obtain ⟨rem, acc', hrec, ⟨extra, hig⟩, hrem, hleft⟩ :=
        ih { acc with ignored := acc.ignored ++ [g.markStatus .WAITING .FINISHED_IGNORED] }
          honer
      refine ⟨rem, acc', hrec, ⟨[g.markStatus .WAITING .FINISHED_IGNORED] ++ extra, ?_⟩,
        fun g2 hg2 => List.mem_cons_of_mem _ (hrem g2 hg2), ?_⟩
      · rw [hig]; simp
      · intro g2 hg2
        rcases hleft g2 hg2 with hl | hl
        · exact Or.inl hl
        · exact Or.inr (List.mem_cons_of_mem _ hl)
    · rw [if_neg h2]
      cases halloc : ops.canAllocate acc.bm g with
      | LATER =>
        exact ⟨g :: rest, acc, rfl, ⟨[], by simp⟩, fun _ h => h, fun g2 h => Or.inl h⟩
      | NEVER =>
        obtain ⟨rem, acc', hrec, ⟨extra, hig⟩, hrem, hleft⟩ :=
          ih { acc with ignored := acc.ignored ++ [g.markStatus .WAITING .FINISHED_IGNORED] }
            honer
        refine ⟨rem, acc', hrec, ⟨[g.markStatus .WAITING .FINISHED_IGNORED] ++ extra, ?_⟩,
          fun g2 hg2 => List.mem_cons_of_mem _ (hrem g2 hg2), ?_⟩
        · rw [hig]; simp
        · intro g2 hg2
          rcases hleft g2 hg2 with hl | hl
          · exact Or.inl hl
          · exact Or.inr (List.mem_cons_of_mem _ hl)
      | OK =>
        by_cases h3 : cfg.loraEnabled ∧ 0 < g.loraIntId ∧ g.loraIntId ∉ acc.currLoras ∧
            cfg.maxLoras ≤ acc.currLoras.length
        · rw [if_pos h3]
          obtain ⟨rem, acc', hrec, hig, hrem, hleft⟩ :=
            ih { acc with leftover := g :: acc.leftover } honer
          refine ⟨rem, acc', hrec, hig,
            fun g2 hg2 => List.mem_cons_of_mem _ (hrem g2 hg2), ?_⟩
          intro g2 hg2
          rcases hleft g2 hg2 with hl | hl
          · rcases List.mem_cons.mp hl with hl | hl
            · exact Or.inr (hl ▸ List.mem_cons_self _ _)
            · exact Or.inl hl
          · exact Or.inr (List.mem_cons_of_mem _ hl)
        · rw [if_neg h3]
          by_cases h4 : cfg.maxNumBatchedTokens <
              (acc.seqLens ++ [Scheduler.promptTokens g]).length *
                maxNat (acc.seqLens ++ [Scheduler.promptTokens g])
          · rw [if_pos h4]
            exact ⟨g :: rest, acc, rfl, ⟨[], by simp⟩, fun _ h => h, fun g2 h => Or.inl h⟩
          · rw [if_neg h4]
            by_cases h5 : cfg.maxNumSeqs < acc.numCurrSeqs + g.maxNumRunningSeqs
            · rw [if_pos h5]
              exact ⟨g :: rest, acc, rfl, ⟨[], by simp⟩, fun _ h => h, fun g2 h => Or.inl h⟩
            · rw [if_neg h5]
              by_cases h6 : cfg.maxPaddings <
                  (acc.seqLens ++ [Scheduler.promptTokens g]).length *
                    maxNat (acc.seqLens ++ [Scheduler.promptTokens g]) -
                    (acc.seqLens ++ [Scheduler.promptTokens g]).sum
              · rw [if_pos h6]
                exact ⟨g :: rest, acc, rfl, ⟨[], by simp⟩, fun _ h => h, fun g2 h => Or.inl h⟩
              · rw [if_neg h6]
                obtain ⟨rem, acc', hrec, hig, hrem, hleft⟩ := ih _ honer
                refine ⟨rem, acc', hrec, hig,
                  fun g2 hg2 => List.mem_cons_of_mem _ (hrem g2 hg2), ?_⟩
                intro g2 hg2
                rcases hleft g2 hg2 with hl | hl
                · exact Or.inl hl
                · exact Or.inr (List.mem_cons_of_mem _ hl)

/-- C9 (amended): when the swapped queue is empty and the group at the
*front* of the waiting queue has a prompt longer than
`min(max_model_len, max_num_batched_tokens)`, `_schedule` marks that
group's WAITING sequences FINISHED_IGNORED, removes it from the waiting
queue, and includes it in `ignored_seq_groups` (returning a prompt
batch).  Groups further back in the queue receive the same treatment
only if the admission loop reaches them. -/
theorem c9_front_long_prompt_ignored {σ : Type} (cfg : SchedConfig)
    (ops : BlockManagerOps σ) (g : SeqGroup) (rest : List SeqGroup)
    (st : SchedulerState σ)
    (hsw : st.swapped = [])
    (hwait : st.waiting = g :: rest)
    (hassert : (g.getSeqs .WAITING).length = 1)
    (hlong : cfg.promptLimit < Scheduler.promptTokens g)
    (hrest : ∀ g2 ∈ rest, (g2.getSeqs .WAITING).length = 1)
    (hgnew : g ∉ rest) :
    ∃ out st', Scheduler.scheduleStep cfg ops st = some (out, st') ∧
      out.promptRun = true ∧
      g.markStatus .WAITING .FINISHED_IGNORED ∈ out.ignoredSeqGroups ∧
      (∀ sq ∈ g.seqs, sq.status = .WAITING →
        { sq with status := .FINISHED_IGNORED } ∈
          (g.markStatus .WAITING .FINISHED_IGNORED).seqs) ∧
      g ∉ st'.waiting := by
  have hswe : st.swapped.isEmpty = true := by rw [hsw]; rfl
  unfold Scheduler.scheduleStep
  rw [if_pos hswe, hwait]
  unfold Scheduler.prefillLoop
  rw [if_neg (not_ne_iff.mpr hassert), if_pos hlong]
  obtain ⟨rem, acc', hrec, ⟨extra, hig⟩, hrem, hleft⟩ :=
    prefillLoop_total cfg ops rest
      { ignored := [] ++ [g.markStatus .WAITING .FINISHED_IGNORED]
        scheduled := []
        running := st.running
        numCurrSeqs := (st.running.map (fun g => g.maxNumRunningSeqs)).sum
        currLoras := Scheduler.initCurrLoras cfg st.running
        seqLens := []
        leftover := []
        bm := st.bm } hrest
  rw [hrec]
  have hig' : acc'.ignored = g.markStatus .WAITING .FINISHED_IGNORED :: extra := by
    rw [hig]; rfl
  have hne : ¬ (acc'.scheduled.isEmpty = true ∧ acc'.ignored.isEmpty = true) := by
    intro ⟨_, hi⟩
    rw [hig'] at hi
    exact absurd hi (by simp)
  refine ⟨mkSchedulerOutputs acc'.scheduled true
      (acc'.seqLens.length * maxNat acc'.seqLens) [] [] [] acc'.ignored,
    ⟨acc'.leftover.reverse ++ rem, acc'.running, st.swapped, acc'.bm⟩, ?_, ?_, ?_, ?_, ?_⟩
  · show (if acc'.scheduled.isEmpty = true ∧ acc'.ignored.isEmpty = true then
        Scheduler.modeB cfg ops
          ⟨acc'.leftover.reverse ++ rem, acc'.running, st.swapped, acc'.bm⟩
      else
        some (mkSchedulerOutputs acc'.scheduled true
            (acc'.seqLens.length * maxNat acc'.seqLens) [] [] [] acc'.ignored,
          ⟨acc'.leftover.reverse ++ rem, acc'.running, st.swapped, acc'.bm⟩)) = _
    rw [if_neg hne]
  · simp [mkSchedulerOutputs]
  · show g.markStatus .WAITING .FINISHED_IGNORED ∈
      (mkSchedulerOutputs acc'.scheduled true
        (acc'.seqLens.length * maxNat acc'.seqLens) [] [] [] acc'.ignored).ignoredSeqGroups
    simp only [mkSchedulerOutputs]
    rw [hig']
    exact List.mem_cons_self _ _
  · intro sq hsq hst
    simp only [SeqGroup.markStatus]
    refine List.mem_map.mpr ⟨sq, hsq, ?_⟩
    rw [if_pos (by rw [hst]; rfl)]
  · show g ∉ acc'.leftover.reverse ++ rem
    intro hmem
    rcases List.mem_append.mp hmem with hm | hm
    · rcases hleft g (List.mem_reverse.mp hm) with hl | hl
      · simp at hl
      · exact hgnew hl
    · exact hgnew (hrem g hm)

/-- C9 counterexample: the claim as stated — *every* waiting group whose
prompt exceeds the limit is ignored by a `schedule()` call — is false.
With `prompt_limit = 10`, a 5-token group whose allocation verdict is
LATER sits at the front; the admission loop stops there, so the 11-token
group behind it is neither marked FINISHED_IGNORED nor removed: the step
returns with an empty `ignored_seq_groups` and the over-long group still
WAITING in the waiting queue. -/
theorem c9_long_prompt_counterexample :
    Scheduler.scheduleStep ⟨100, 4, 100, 10, false, 0⟩ (constOps .LATER true true)
        ⟨[⟨1, [⟨1, 5, .WAITING⟩], 1, 0, 0⟩, ⟨2, [⟨2, 11, .WAITING⟩], 1, 0, 1⟩],
          [], [], ()⟩ =
      some (⟨[], false, 0, [], [], [], []⟩,
        ⟨[⟨1, [⟨1, 5, .WAITING⟩], 1, 0, 0⟩, ⟨2, [⟨2, 11, .WAITING⟩], 1, 0, 1⟩],
          [], [], ()⟩) ∧
    (⟨100, 4, 100, 10, false, 0⟩ : SchedConfig).promptLimit <
      Scheduler.promptTokens ⟨2, [⟨2, 11, .WAITING⟩], 1, 0, 1⟩ ∧
    (⟨[], false, 0, [], [], [], []⟩ : SchedulerOutputs).ignoredSeqGroups = [] ∧
    (⟨2, [⟨2, 11, .WAITING⟩], 1, 0, 1⟩ : SeqGroup) ∈
      ([⟨1, [⟨1, 5, .WAITING⟩], 1, 0, 0⟩, ⟨2, [⟨2, 11, .WAITING⟩], 1, 0, 1⟩] :
        List SeqGroup) ∧
    (⟨2, 11, .WAITING⟩ : Seq).status = .WAITING :=
  ⟨rfl, by decide, rfl, by decide, rfl⟩

/-- Witness for `c9_front_long_prompt_ignored`: an 11-token group at the
front of the waiting queue with `prompt_limit = 10`. -/
theorem c9_front_long_prompt_ignored_witness :
    ∃ out st', Scheduler.scheduleStep ⟨100, 4, 100, 10, false, 0⟩ (constOps .OK true true)
        ⟨[⟨2, [⟨2, 11, .WAITING⟩], 1, 0, 0⟩], [], [], ()⟩ = some (out, st') ∧
      out.promptRun = true ∧
      (⟨2, [⟨2, 11, .WAITING⟩], 1, 0, 0⟩ : SeqGroup).markStatus .WAITING .FINISHED_IGNORED ∈
        out.ignoredSeqGroups ∧
      (∀ sq ∈ (⟨2, [⟨2, 11, .WAITING⟩], 1, 0, 0⟩ : SeqGroup).seqs, sq.status = .WAITING →
        { sq with status := .FINISHED_IGNORED } ∈
          ((⟨2, [⟨2, 11, .WAITING⟩], 1, 0, 0⟩ : SeqGroup).markStatus
            .WAITING .FINISHED_IGNORED).seqs) ∧
      (⟨2, [⟨2, 11, .WAITING⟩], 1, 0, 0⟩ : SeqGroup) ∉ st'.waiting :=
  c9_front_long_prompt_ignored ⟨100, 4, 100, 10, false, 0⟩ (constOps .OK true true)
    ⟨2, [⟨2, 11, .WAITING⟩], 1, 0, 0⟩ [] ⟨[⟨2, [⟨2, 11, .WAITING⟩], 1, 0, 0⟩], [], [], ()⟩
    rfl rfl (by decide) (by decide) (by simp) (by simp)

end VLLM
